import Mathlib

/-!
Chrome-Charset: encoding ranking, recency list, mojibake heuristic and escaping.

A shallow embedding of `j/encoding.js` (`getEncodingList`, `initializeEncodingLists`),
of `recordRecentlySelectedEncoding`, `escapeHtml` and `createDecodedContentHTML` from
`j/background.js`, and of `analyzeTextContent`, `detectLikelyEncoding` and the
improvement test of `attemptContentReprocessing` from `j/content-script.js`.

Modelling conventions.

* An entry of `BASE_ENCODINGS` is a JavaScript array `[code, name]`; the separator is
  the one-element array `['<hr>']`, so destructuring `[a, nameA]` binds `nameA` to
  `undefined`.  `Entry.name = none` stands for that `undefined`.
* The comparator ends in `nameA.localeCompare(nameB, lang)`.  With `nameA` undefined
  this throws a `TypeError`; the comparator therefore returns `Option Int`, `none`
  being the thrown error.  An undefined `nameB` is only an argument and is converted
  to the string `"undefined"`.  The host comparison `localeCompare` is a parameter `lc`.
* `Array.prototype.sort` is the host's stable sort.  It is modelled by a stable
  insertion sort: the elements are taken left to right and each one is put in front
  of the first element `y` of the sorted prefix with `comparator(x, y) < 0`.
  `getEncodingList` returns `none` when a comparison throws.
* `chrome.storage.local` is reduced to the value stored under the key `recent`
  (`none` when the key was never written); strings are split and joined at commas
  as `String.prototype.split` and `Array.prototype.join` do.
* A JavaScript string is the list of its UTF-16 code units (`JsString`); a character of
  a text sample is one code unit, as for `length`, `substring` and regular expressions
  without the `u` flag.  The regular expressions of the source are alternations of
  fixed sequences of literals, classes and dots (`Regex`).
-/

namespace ChromeCharset

/-! ## The encoding catalog and its comparator (encoding.js) -/

/-- An element of `BASE_ENCODINGS`: `[code, name]`, the name being `undefined` (`none`)
for a one-element array such as `['<hr>']`. -/
structure Entry where
  code : String
  name : Option String
deriving DecidableEq, Repr

/-- JavaScript `Array.prototype.indexOf` on an array of strings: the index of the first
element strictly equal to `a`, or `-1`. -/
def indexOf (l : List String) (a : String) : Int :=
  if a ∈ l then (l.indexOf a : Int) else -1

/-- The string an `undefined` argument of `localeCompare` is converted to. -/
def nameArg (e : Entry) : String :=
  e.name.getD "undefined"

/-- The comparator passed to `sort` in `getEncodingList` (encoding.js, lines 69-97).
`locale` is `LocaleDependentStaticEncodingList`, `recent` is
`recentlySelectedEncodingList`; `none` is the `TypeError` of calling
`localeCompare` on an undefined `nameA`. -/
def comparator (lc : String → String → Int) (locale recent : List String)
    (x y : Entry) : Option Int :=
  let a := x.code
  let b := y.code
  -- we always put UTF-8 as top position
  if a = "UTF-8" then some (-1)
  else if b = "UTF-8" then some 1
  else
    -- then put local dependent encoding items
    let hasA := indexOf locale a
    let hasB := indexOf locale b
    if hasA ≥ 0 ∧ hasB ≥ 0 then some (if hasA > hasB then 1 else -1)
    else if hasA ≥ 0 then some (-1)
    else if hasB ≥ 0 then some 1
    else
      -- then put user recently selected encodings
      let hasA := indexOf recent a
      let hasB := indexOf recent b
      if hasA ≥ 0 ∧ hasB ≥ 0 then some (if hasA > hasB then 1 else -1)
      else if hasA ≥ 0 then some (-1)
      else if hasB ≥ 0 then some 1
      -- then put a delimiter
      else if a = "<hr>" then some (-1)
      else if b = "<hr>" then some 1
      -- then put UTF-16LE
      else if a = "UTF-16LE" then some (-1)
      else if b = "UTF-16LE" then some 1
      -- sort all left encodings by their name
      else
        match x.name with
        | none => none
        | some nameA => some (lc nameA (nameArg y))

/-! ## The host sort -/

/-- One insertion step of the sort: `x` goes in front of the first `y` with
`cmp x y < 0`; a throwing comparison aborts the sort. -/
def insertSorted {α : Type} (cmp : α → α → Option Int) (x : α) : List α → Option (List α)
  | [] => some [x]
  | y :: ys =>
    match cmp x y with
    | none => none
    | some c =>
      if c < 0 then some (x :: y :: ys)
      else
        match insertSorted cmp x ys with
        | none => none
        | some r => some (y :: r)

/-- The sort loop: `acc` is the sorted prefix, the second list what is left to insert. -/
def sortLoop {α : Type} (cmp : α → α → Option Int) : List α → List α → Option (List α)
  | acc, [] => some acc
  | acc, x :: xs =>
    match insertSorted cmp x acc with
    | none => none
    | some acc' => sortLoop cmp acc' xs

/-- Model of `Array.prototype.sort(cmp)` on a copy of the array. -/
def sort {α : Type} (cmp : α → α → Option Int) (l : List α) : Option (List α) :=
  sortLoop cmp [] l

/-- `getEncodingList` (encoding.js, lines 68-98): `BASE_ENCODINGS.slice().sort(...)`,
with the catalog and the two module-level lists as parameters. -/
def getEncodingList (lc : String → String → Int) (locale recent : List String)
    (catalog : List Entry) : Option (List Entry) :=
  sort (comparator lc locale recent) catalog

/-- `BASE_ENCODINGS` (encoding.js, lines 27-65); `getMessage` is `chrome.i18n.getMessage`. -/
def BASE_ENCODINGS (getMessage : String → String) : List Entry :=
  [ ⟨"<hr>", none⟩,
    ⟨"Big5", some (getMessage "encodingChineseTraditional")⟩,
    ⟨"GBK", some (getMessage "encodingChineseSimplified")⟩,
    ⟨"GB18030", some (getMessage "encodingChineseSimplified")⟩,
    ⟨"EUC-JP", some (getMessage "encodingJapanese")⟩,
    ⟨"EUC-KR", some (getMessage "encodingKorean")⟩,
    ⟨"IBM866", some (getMessage "encodingCyrillic")⟩,
    ⟨"ISO-2022-JP", some (getMessage "encodingJapanese")⟩,
    ⟨"ISO-8859-2", some (getMessage "encodingCentralEuropean")⟩,
    ⟨"ISO-8859-3", some (getMessage "encodingSouthEuropean")⟩,
    ⟨"ISO-8859-4", some (getMessage "encodingBaltic")⟩,
    ⟨"ISO-8859-5", some (getMessage "encodingCyrillic")⟩,
    ⟨"ISO-8859-6", some (getMessage "encodingArabic")⟩,
    ⟨"ISO-8859-7", some (getMessage "encodingGreek")⟩,
    ⟨"ISO-8859-8", some (getMessage "encodingHebrew")⟩,
    ⟨"ISO-8859-8-I", some (getMessage "encodingHebrew")⟩,
    ⟨"ISO-8859-10", some (getMessage "encodingNordic")⟩,
    ⟨"ISO-8859-13", some (getMessage "encodingBaltic")⟩,
    ⟨"ISO-8859-14", some (getMessage "encodingCeltic")⟩,
    ⟨"ISO-8859-15", some (getMessage "encodingWestern")⟩,
    ⟨"ISO-8859-16", some (getMessage "encodingRomanian")⟩,
    ⟨"KOI8-R", some (getMessage "encodingCyrillic")⟩,
    ⟨"KOI8-U", some (getMessage "encodingCyrillic")⟩,
    ⟨"Macintosh", some (getMessage "encodingWestern")⟩,
    ⟨"Shift_JIS", some (getMessage "encodingJapanese")⟩,
    ⟨"UTF-8", some (getMessage "encodingUnicode")⟩,
    ⟨"UTF-16LE", some (getMessage "encodingUnicode")⟩,
    ⟨"Windows-874", some (getMessage "encodingThai")⟩,
    ⟨"Windows-1250", some (getMessage "encodingCentralEuropean")⟩,
    ⟨"Windows-1251", some (getMessage "encodingCyrillic")⟩,
    ⟨"Windows-1252", some (getMessage "encodingWestern")⟩,
    ⟨"Windows-1253", some (getMessage "encodingGreek")⟩,
    ⟨"Windows-1254", some (getMessage "encodingTurkish")⟩,
    ⟨"Windows-1255", some (getMessage "encodingHebrew")⟩,
    ⟨"Windows-1256", some (getMessage "encodingArabic")⟩,
    ⟨"Windows-1257", some (getMessage "encodingBaltic")⟩,
    ⟨"Windows-1258", some (getMessage "encodingVietnamese")⟩ ]

/-! ## The recency list in the store (background.js, encoding.js) -/

/-- JavaScript `s.split(',')` on the characters of `s`: the pieces between the commas;
the empty string gives one empty piece. -/
def splitChars : List Char → List (List Char)
  | [] => [[]]
  | c :: cs =>
    if c = ',' then [] :: splitChars cs
    else
      match splitChars cs with
      | [] => [[c]]
      | w :: ws => (c :: w) :: ws

/-- JavaScript `l.join(',')` on lists of characters. -/
def joinChars : List (List Char) → List Char
  | [] => []
  | [w] => w
  | w :: w' :: ws => w ++ ',' :: joinChars (w' :: ws)

/-- JavaScript `s.split(',')`. -/
def splitComma (s : String) : List String :=
  (splitChars s.data).map String.mk

/-- JavaScript `l.join(',')`. -/
def joinComma (l : List String) : String :=
  String.mk (joinChars (l.map String.data))

/-- The array `[encoding, ...recent]` built by `recordRecentlySelectedEncoding`
(background.js, lines 16-23) from the value stored under `recent`. -/
def recentToStore (stored : Option String) (encoding : String) : List String :=
  let recent := ((splitComma (stored.getD "")).filter
    (fun e => decide (e ≠ "") && decide (e ≠ encoding))).take 2
  encoding :: recent

/-- `recordRecentlySelectedEncoding` (background.js, lines 15-28) as a function on the
value stored under the key `recent`. -/
def recordRecentlySelectedEncoding (stored : Option String) (encoding : String) :
    Option String :=
  some (joinComma (recentToStore stored encoding))

/-- `initializeEncodingLists` (encoding.js, lines 11-24): the value of
`recentlySelectedEncodingList` reloaded from the store. -/
def initializeEncodingLists (stored : Option String) : List String :=
  (splitComma (stored.getD "")).filter (fun e => decide (e ≠ ""))

/-! ## Notions used in the statements -/

/-- Every entry other than the one-element separator `['<hr>']` carries a display name. -/
def wellFormed (catalog : List Entry) : Prop :=
  ∀ e ∈ catalog, e.name = none → e.code = "<hr>"

/-- Both `a` and `b` occur in `out`, and every occurrence of `a` comes before every
occurrence of `b`. -/
def Precedes (out : List Entry) (a b : Entry) : Prop :=
  a ∈ out ∧ b ∈ out ∧ ∀ i j : Nat, out[i]? = some a → out[j]? = some b → i < j

/-- The position class the comparator gives an entry: UTF-8, then the locale codes by
index, then the recent codes by index, then the separator, then UTF-16LE, then the rest. -/
def rank (locale recent : List String) (e : Entry) : Nat :=
  if e.code = "UTF-8" then 0
  else if e.code ∈ locale then 1 + locale.indexOf e.code
  else if e.code ∈ recent then 1 + locale.length + recent.indexOf e.code
  else if e.code = "<hr>" then 1 + locale.length + recent.length
  else if e.code = "UTF-16LE" then 2 + locale.length + recent.length
  else 3 + locale.length + recent.length

/-- The rank of the entries that are sorted by display name. -/
def tailRank (locale recent : List String) : Nat :=
  3 + locale.length + recent.length

/-- The entries sorted by display name: not UTF-8, not the separator, not UTF-16LE and
in neither list. -/
def isTail (locale recent : List String) (e : Entry) : Prop :=
  e.code ≠ "UTF-8" ∧ e.code ∉ locale ∧ e.code ∉ recent ∧ e.code ≠ "<hr>" ∧
    e.code ≠ "UTF-16LE"

/-- The comparison `lc` is that of a total preorder on strings: the sign of `lc s t`
is opposite to the sign of `lc t s`, and `lc s t ≤ 0` is transitive. -/
def IsTotalPreorderCompare (lc : String → String → Int) : Prop :=
  (∀ s t, lc s t < 0 ↔ 0 < lc t s) ∧ (∀ s t u, lc s t ≤ 0 → lc t u ≤ 0 → lc s u ≤ 0)

/-- The order the comparator induces when `lc` is a total preorder comparison: by rank,
and by display name inside the tail. -/
def rankNameLe (lc : String → String → Int) (locale recent : List String)
    (a b : Entry) : Prop :=
  rank locale recent a ≤ rank locale recent b ∧
    (rank locale recent a = tailRank locale recent →
      rank locale recent b = tailRank locale recent → lc (nameArg a) (nameArg b) ≤ 0)

/-- Comparison of two character sequences by code points: negative, zero or positive. -/
def compareChars : List Char → List Char → Int
  | [], [] => 0
  | [], _ :: _ => -1
  | _ :: _, [] => 1
  | a :: as, b :: bs =>
    if a.toNat < b.toNat then -1
    else if b.toNat < a.toNat then 1
    else compareChars as bs

/-- Comparison of strings by code points, a sample `localeCompare`. -/
def ordinalCompare (s t : String) : Int :=
  compareChars s.data t.data

/-- A small catalog: UTF-8, Windows-1252, the separator, UTF-16LE, Shift_JIS, GBK, Big5. -/
def sampleCatalog : List Entry :=
  [ ⟨"UTF-8", some "Unicode"⟩, ⟨"Windows-1252", some "Western"⟩, ⟨"<hr>", none⟩,
    ⟨"UTF-16LE", some "Unicode"⟩, ⟨"Shift_JIS", some "Japanese"⟩,
    ⟨"GBK", some "Chinese Simplified"⟩, ⟨"Big5", some "Chinese Traditional"⟩ ]

/-! ## Text samples and the patterns of content-script.js -/

/-- A JavaScript string: its sequence of UTF-16 code units.  `length`, `substring` and
regular expressions without the `u` flag all work on code units. -/
abbrev JsString := List Nat

/-- The UTF-16 code units of a string given by its code points. -/
def utf16 (s : String) : JsString :=
  go s.data
where
  /-- Code units of a list of characters. -/
  go : List Char → JsString
    | [] => []
    | c :: cs =>
      if c.toNat < 0x10000 then c.toNat :: go cs
      else (0xD800 + (c.toNat - 0x10000) / 0x400) ::
        (0xDC00 + (c.toNat - 0x10000) % 0x400) :: go cs

/-- A member of a character class: one code unit or a range `lo-hi`. -/
inductive ClassItem where
  | one (c : Nat)
  | range (lo hi : Nat)
deriving DecidableEq, Repr

/-- The code unit `c` is the item or lies in its range. -/
def ClassItem.contains : ClassItem → Nat → Bool
  | .one d, c => c == d
  | .range lo hi, c => decide (lo ≤ c) && decide (c ≤ hi)

/-- One position of a pattern: a literal code unit, a class `[...]`, a negated class
`[^...]`, or the dot. -/
inductive Atom where
  | chr (c : Nat)
  | cls (items : List ClassItem)
  | ncls (items : List ClassItem)
  | dot
deriving DecidableEq, Repr

/-- The line terminators, which `.` does not match: LF, CR, U+2028, U+2029. -/
def isLineTerminator (c : Nat) : Bool :=
  c == 0x0A || c == 0x0D || c == 0x2028 || c == 0x2029

/-- The atom matches the code unit `c`. -/
def Atom.matchesUnit : Atom → Nat → Bool
  | .chr d, c => c == d
  | .cls items, c => items.any (fun i => i.contains c)
  | .ncls items, c => !(items.any (fun i => i.contains c))
  | .dot, c => !(isLineTerminator c)

/-- The sequence of atoms matches a prefix of `s`. -/
def matchSeq : List Atom → JsString → Bool
  | [], _ => true
  | _ :: _, [] => false
  | a :: as, c :: cs => a.matchesUnit c && matchSeq as cs

/-- A regular expression of the kind used in the source: an alternation `p1|p2|...` of
sequences of atoms, without flags. -/
abbrev Regex := List (List Atom)

/-- Some alternative matches at the start of `s`. -/
def matchAt (r : Regex) (s : JsString) : Bool :=
  r.any (fun alt => matchSeq alt s)

/-- JavaScript `r.test(s)`: some alternative matches at some position of `s`. -/
def test (r : Regex) : JsString → Bool
  | [] => matchAt r []
  | c :: cs => matchAt r (c :: cs) || test r cs

/-- JavaScript `s.match(/a/g)` for a pattern of one atom: the array of the matched code
units, or `null` (`none`) when there is no match. -/
def matchAll (a : Atom) (s : JsString) : Option (List JsString) :=
  if (s.filter a.matchesUnit).isEmpty then none
  else some ((s.filter a.matchesUnit).map (fun c => [c]))

/-- The pattern of the replacement character U+FFFD (content-script.js, lines 50,
374, 375). -/
def replacementCharRegex : Regex :=
  [[.chr 0xFFFD]]

/-- The pattern of `hasLatin1Issues` (content-script.js, line 51). -/
def latin1IssuesRegex : Regex :=
  [ [.chr 0xC3, .chr 0xA1], [.chr 0xC3, .chr 0xA9], [.chr 0xC3, .chr 0xAD],
    [.chr 0xC3, .chr 0xB3], [.chr 0xC3, .chr 0xBA], [.chr 0xC3, .chr 0xB1],
    [.chr 0xC3, .chr 0xBC], [.chr 0xC3, .chr 0xBF], [.chr 0xC3, .chr 0xBA],
    [.chr 0xC3, .chr 0xB4], [.chr 0xC3, .chr 0xA2], [.chr 0xC3, .chr 0xA7] ]

/-- The pattern of `hasWin1252Issues` (content-script.js, line 52). -/
def win1252IssuesRegex : Regex :=
  [ [.chr 0xE2, .chr 0x20AC, .chr 0x2122], [.chr 0xE2, .chr 0x20AC, .chr 0x153],
    [.chr 0xE2, .chr 0x20AC, .chr 0xFFFD], [.chr 0xE2, .chr 0x20AC, .chr 0xA2],
    [.chr 0xE2, .chr 0x20AC, .chr 0x22], [.chr 0xE2, .chr 0x20AC, .chr 0xA6] ]

/-- The negated class of line 53 of content-script.js: every code unit outside
U+0000..U+007F, U+00A0..U+024F and U+1E00..U+1EFF. -/
def suspiciousAtom : Atom :=
  .ncls [.range 0x00 0x7F, .range 0xA0 0x24F, .range 0x1E00 0x1EFF]

/-- The first pattern of `detectLikelyEncoding` (content-script.js, line 63):
U+00C3 followed by a code unit in the range U+00A1..U+00FF. -/
def utf8AsLatin1Regex : Regex :=
  [[.chr 0xC3, .cls [.range 0xA1 0xFF]]]

/-- The second pattern of `detectLikelyEncoding` (content-script.js, line 68):
U+00E2 U+20AC followed by one of U+2122, U+0153, U+FFFD, U+00A2, U+0022, U+00A6. -/
def win1252AsUtf8Regex : Regex :=
  [[.chr 0xE2, .chr 0x20AC,
    .cls [.one 0x2122, .one 0x153, .one 0xFFFD, .one 0xA2, .one 0x22, .one 0xA6]]]

/-- The third pattern of `detectLikelyEncoding` (content-script.js, line 73):
U+00D0 followed by a code unit in the range U+00C0..U+0178, or U+00D1 followed by
U+20AC or `-` and then any code unit but a line terminator. -/
def cyrillicRegex : Regex :=
  [ [.chr 0xD0, .cls [.range 0xC0 0x178]],
    [.chr 0xD1, .cls [.one 0x20AC, .one 0x2D], .dot] ]

/-- `detectLikelyEncoding` (content-script.js, lines 61-78). -/
def detectLikelyEncoding (textSample : JsString) : String :=
  if test utf8AsLatin1Regex textSample then "utf-8-as-latin1"
  else if test win1252AsUtf8Regex textSample then "windows-1252-as-utf8"
  else if test cyrillicRegex textSample then "cyrillic-wrong-encoding"
  else "unknown"

/-- The object `issues` returned by `analyzeTextContent`. -/
structure Issues where
  hasReplacementChars : Bool
  hasLatin1Issues : Bool
  hasWin1252Issues : Bool
  suspiciousChars : Nat
  likelyOriginalEncoding : String
deriving DecidableEq, Repr

/-- The sample `document.body?.textContent?.substring(0, 1000) || ''`; `textContent` is
`none` when the document has no body or no text content. -/
def textSampleOf (textContent : Option JsString) : JsString :=
  match textContent with
  | none => []
  | some t => t.take 1000

/-- `analyzeTextContent` (content-script.js, lines 47-58), the text content of the body
being a parameter. -/
def analyzeTextContent (textContent : Option JsString) : Issues :=
  let textSample := textSampleOf textContent
  { hasReplacementChars := test replacementCharRegex textSample
    hasLatin1Issues := test latin1IssuesRegex textSample
    hasWin1252Issues := test win1252IssuesRegex textSample
    suspiciousChars :=
      match matchAll suspiciousAtom textSample with
      | none => 0
      | some ms => ms.length
    likelyOriginalEncoding := detectLikelyEncoding textSample }

/-- The number of replacement characters, `(text.match(/U+FFFD/g) || []).length`
(content-script.js, lines 374-375). -/
def replacementCharCount (text : JsString) : Nat :=
  ((matchAll (.chr 0xFFFD) text).getD []).length

/-- The condition of line 379 of content-script.js on the two counts:
`newReplacementChars < originalReplacementChars ||
(originalReplacementChars > 0 && newReplacementChars === 0)`. -/
def isImprovement (originalReplacementChars newReplacementChars : Nat) : Bool :=
  decide (newReplacementChars < originalReplacementChars) ||
    (decide (originalReplacementChars > 0) && decide (newReplacementChars = 0))

/-- The decision "the new encoding seems better" of `attemptContentReprocessing`
(content-script.js, lines 373-380) on the page text and the redecoded text. -/
def newEncodingSeemsBetter (originalText redecodedText : JsString) : Bool :=
  isImprovement (replacementCharCount originalText) (replacementCharCount redecodedText)

/-! ## Escaping (background.js) -/

/-- JavaScript `s.replace(/c/g, rep)` for a single code unit `c` and a replacement
without `$`. -/
def replaceAll (c : Nat) (rep : JsString) : JsString → JsString
  | [] => []
  | x :: xs => (if x = c then rep else [x]) ++ replaceAll c rep xs

/-- `escapeHtml` of background.js (lines 130-137). -/
def escapeHtml (text : JsString) : JsString :=
  replaceAll 0x27 (utf16 "&#39;")
    (replaceAll 0x22 (utf16 "&quot;")
      (replaceAll 0x3E (utf16 "&gt;")
        (replaceAll 0x3C (utf16 "&lt;")
          (replaceAll 0x26 (utf16 "&amp;") text))))

/-- The text of the template of `createDecodedContentHTML` before the escaped content. -/
def decodedContentHead : JsString :=
  utf16 ("<!DOCTYPE html>\n<html>\n<head>\n  <meta charset=\"utf-8\">\n" ++
    "  <title>UTF-8 Content</title>\n  <style>\n    body \x7b\n      margin: 0;\n" ++
    "      padding: 0;\n      white-space: pre-wrap;\n      word-wrap: break-word;\n" ++
    "      font-family: 'Regio Mono',monospace;\n      font-size: 9pt;\n    \x7d\n" ++
    "  </style>\n</head>\n<body>")

/-- The text of the template of `createDecodedContentHTML` after the escaped content. -/
def decodedContentTail : JsString :=
  utf16 "</body>\n</html>"

/-- `createDecodedContentHTML` (background.js, lines 140-159); the last three
parameters are not used by the source. -/
def createDecodedContentHTML (content : JsString) (_encoding _originalUrl
    _originalEncoding : JsString) : JsString :=
  decodedContentHead ++ escapeHtml content ++ decodedContentTail

/-- The sample contains U+00C3 followed by a code unit in U+00A1..U+00FF. -/
def HasUtf8AsLatin1Pattern (s : JsString) : Prop :=
  ∃ pre c post, s = pre ++ 0xC3 :: c :: post ∧ 0xA1 ≤ c ∧ c ≤ 0xFF

/-- The sample contains U+00E2 U+20AC followed by one of U+2122, U+0153, U+FFFD,
U+00A2, U+0022, U+00A6. -/
def HasWin1252AsUtf8Pattern (s : JsString) : Prop :=
  ∃ pre c post, s = pre ++ 0xE2 :: 0x20AC :: c :: post ∧
    c ∈ [0x2122, 0x153, 0xFFFD, 0xA2, 0x22, 0xA6]

/-- The sample contains U+00D0 followed by a code unit in U+00C0..U+0178, or U+00D1
followed by U+20AC or U+002D and one more code unit that is no line terminator. -/
def HasCyrillicPattern (s : JsString) : Prop :=
  (∃ pre c post, s = pre ++ 0xD0 :: c :: post ∧ 0xC0 ≤ c ∧ c ≤ 0x178) ∨
  (∃ pre c d post, s = pre ++ 0xD1 :: c :: d :: post ∧ (c = 0x20AC ∨ c = 0x2D) ∧
    d ≠ 0x0A ∧ d ≠ 0x0D ∧ d ≠ 0x2028 ∧ d ≠ 0x2029)

/-- The code unit lies in one of the permitted ranges U+0000..U+007F, U+00A0..U+024F,
U+1E00..U+1EFF. -/
def isPermitted (c : Nat) : Bool :=
  decide (c ≤ 0x7F) || (decide (0xA0 ≤ c) && decide (c ≤ 0x24F)) ||
    (decide (0x1E00 ≤ c) && decide (c ≤ 0x1EFF))

/-- The improvement rule reduced to its first disjunct: strictly fewer replacement
characters. -/
def strictlyFewer (originalReplacementChars newReplacementChars : Nat) : Bool :=
  decide (newReplacementChars < originalReplacementChars)

/-- The five entities `escapeHtml` produces: `&amp;`, `&lt;`, `&gt;`, `&quot;`, `&#39;`. -/
def htmlEntities : List JsString :=
  [utf16 "&amp;", utf16 "&lt;", utf16 "&gt;", utf16 "&quot;", utf16 "&#39;"]

/-- The escape of one code unit: the entity of `&`, `<`, `>`, `"`, `'`, and the code
unit itself otherwise. -/
def escapeUnit (x : Nat) : JsString :=
  if x = 0x26 then utf16 "&amp;"
  else if x = 0x3C then utf16 "&lt;"
  else if x = 0x3E then utf16 "&gt;"
  else if x = 0x22 then utf16 "&quot;"
  else if x = 0x27 then utf16 "&#39;"
  else [x]

/-- Every code unit of the text escaped once, in order. -/
def escapeEach : JsString → JsString
  | [] => []
  | x :: xs => escapeUnit x ++ escapeEach xs

/-- The strict order a stable sort by the comparator has to follow: the lower rank
first; inside the tail the smaller display name first, and entries of equal display
name in the order of the catalog. -/
def stableBefore (lc : String → String → Int) (locale recent : List String)
    (catalog : List Entry) (a b : Entry) : Prop :=
  rank locale recent a < rank locale recent b ∨
    (rank locale recent a = tailRank locale recent ∧
      rank locale recent b = tailRank locale recent ∧
      (lc (nameArg a) (nameArg b) < 0 ∨
        (lc (nameArg a) (nameArg b) = 0 ∧ catalog.indexOf a < catalog.indexOf b)))

/-! ## Generic facts about the sort -/

section SortLemmas

variable {α : Type}

theorem insertSorted_perm (cmp : α → α → Option Int) (x : α) :
    ∀ (l r : List α), insertSorted cmp x l = some r → r.Perm (x :: l) := by
  intro l
  induction l with
  | nil =>
    intro r h
    simp [insertSorted] at h
    subst h
    exact List.Perm.refl _
  | cons y ys ih =>
    intro r h
    unfold insertSorted at h
    cases hc : cmp x y with
    | none => simp [hc] at h
    | some c =>
      simp only [hc] at h
      by_cases hlt : c < 0
      · simp [hlt] at h
        subst h
        exact List.Perm.refl _
      · simp only [hlt, if_false] at h
        cases hr : insertSorted cmp x ys with
        | none => simp [hr] at h
        | some r' =>
          simp [hr] at h
          subst h
          exact ((ih r' hr).cons y).trans (List.Perm.swap x y ys)

theorem sortLoop_perm (cmp : α → α → Option Int) :
    ∀ (l acc out : List α), sortLoop cmp acc l = some out → out.Perm (acc ++ l) := by
  intro l
  induction l with
  | nil =>
    intro acc out h
    simp [sortLoop] at h
    subst h
    simp
  | cons x xs ih =>
    intro acc out h
    unfold sortLoop at h
    cases hi : insertSorted cmp x acc with
    | none => simp [hi] at h
    | some acc' =>
      simp only [hi] at h
      have h1 := ih acc' out h
      have h2 := insertSorted_perm cmp x acc acc' hi
      refine h1.trans ?_
      refine (h2.append_right xs).trans ?_
      simpa using (@List.perm_middle _ x acc xs).symm

theorem sort_perm (cmp : α → α → Option Int) (l out : List α)
    (h : sort cmp l = some out) : out.Perm l := by
  simpa using sortLoop_perm cmp l [] out h

theorem insertSorted_isSome (cmp : α → α → Option Int) (x : α) :
    ∀ (l : List α), (∀ y ∈ l, (cmp x y).isSome) → (insertSorted cmp x l).isSome := by
  intro l
  induction l with
  | nil => intro _; simp [insertSorted]
  | cons y ys ih =>
    intro h
    unfold insertSorted
    have hy := h y (List.mem_cons_self _ _)
    obtain ⟨c, hc⟩ := Option.isSome_iff_exists.mp hy
    simp only [hc]
    by_cases hlt : c < 0
    · simp [hlt]
    · simp only [hlt, if_false]
      have := ih (fun z hz => h z (List.mem_cons_of_mem _ hz))
      obtain ⟨r, hr⟩ := Option.isSome_iff_exists.mp this
      simp [hr]

theorem sortLoop_isSome (cmp : α → α → Option Int) :
    ∀ (l acc : List α), (∀ a ∈ acc ++ l, ∀ b ∈ acc ++ l, (cmp a b).isSome) →
      (sortLoop cmp acc l).isSome := by
  intro l
  induction l with
  | nil => intro acc _; simp [sortLoop]
  | cons x xs ih =>
    intro acc h
    unfold sortLoop
    have hx : x ∈ acc ++ x :: xs := by simp
    have h1 := insertSorted_isSome cmp x acc
      (fun y hy => h x hx y (List.mem_append_left _ hy))
    obtain ⟨acc', hacc⟩ := Option.isSome_iff_exists.mp h1
    simp only [hacc]
    apply ih
    have hp := insertSorted_perm cmp x acc acc' hacc
    have hmem : ∀ z, z ∈ acc' ++ xs → z ∈ acc ++ x :: xs := by
      intro z hz
      rcases List.mem_append.mp hz with hz | hz
      · rcases List.mem_cons.mp (hp.subset hz) with hz | hz
        · subst hz; exact hx
        · exact List.mem_append_left _ hz
      · exact List.mem_append_right _ (List.mem_cons_of_mem _ hz)
    intro a ha b hb
    exact h a (hmem a ha) b (hmem b hb)

theorem sort_isSome (cmp : α → α → Option Int) (l : List α)
    (h : ∀ a ∈ l, ∀ b ∈ l, (cmp a b).isSome) : (sort cmp l).isSome := by
  apply sortLoop_isSome
  simpa using h

/-- If the comparator agrees with a transitive relation `R` (a negative result puts
`x` before `y` in `R`, any other result puts `y` before `x`), an insertion keeps the
list ordered by `R`. -/
theorem insertSorted_pairwise (cmp : α → α → Option Int) (R : α → α → Prop)
    (hneg : ∀ x y c, cmp x y = some c → c < 0 → R x y)
    (hpos : ∀ x y c, cmp x y = some c → ¬ c < 0 → R y x)
    (htrans : ∀ x y z, R x y → R y z → R x z) (x : α) :
    ∀ (l r : List α), l.Pairwise R → insertSorted cmp x l = some r → r.Pairwise R := by
  intro l
  induction l with
  | nil =>
    intro r _ h
    simp [insertSorted] at h
    subst h
    simp
  | cons y ys ih =>
    intro r hl h
    unfold insertSorted at h
    cases hc : cmp x y with
    | none => simp [hc] at h
    | some c =>
      simp only [hc] at h
      have hy := List.pairwise_cons.mp hl
      by_cases hlt : c < 0
      · simp [hlt] at h
        subst h
        refine List.pairwise_cons.mpr ⟨?_, hl⟩
        intro z hz
        rcases List.mem_cons.mp hz with hz | hz
        · subst hz; exact hneg x z c hc hlt
        · exact htrans _ _ _ (hneg x y c hc hlt) (hy.1 z hz)
      · simp only [hlt, if_false] at h
        cases hr : insertSorted cmp x ys with
        | none => simp [hr] at h
        | some r' =>
          simp [hr] at h
          subst h
          refine List.pairwise_cons.mpr ⟨?_, ih r' hy.2 hr⟩
          intro z hz
          rcases List.mem_cons.mp ((insertSorted_perm cmp x ys r' hr).subset hz) with hz | hz
          · subst hz; exact hpos z y c hc hlt
          · exact hy.1 z hz

theorem sortLoop_pairwise (cmp : α → α → Option Int) (R : α → α → Prop)
    (hneg : ∀ x y c, cmp x y = some c → c < 0 → R x y)
    (hpos : ∀ x y c, cmp x y = some c → ¬ c < 0 → R y x)
    (htrans : ∀ x y z, R x y → R y z → R x z) :
    ∀ (l acc out : List α), acc.Pairwise R → sortLoop cmp acc l = some out →
      out.Pairwise R := by
  intro l
  induction l with
  | nil =>
    intro acc out hacc h
    simp [sortLoop] at h
    subst h
    exact hacc
  | cons x xs ih =>
    intro acc out hacc h
    unfold sortLoop at h
    cases hi : insertSorted cmp x acc with
    | none => simp [hi] at h
    | some acc' =>
      simp only [hi] at h
      exact ih acc' out (insertSorted_pairwise cmp R hneg hpos htrans x acc acc' hacc hi) h

theorem sort_pairwise (cmp : α → α → Option Int) (R : α → α → Prop)
    (hneg : ∀ x y c, cmp x y = some c → c < 0 → R x y)
    (hpos : ∀ x y c, cmp x y = some c → ¬ c < 0 → R y x)
    (htrans : ∀ x y z, R x y → R y z → R x z) (l out : List α)
    (h : sort cmp l = some out) : out.Pairwise R :=
  sortLoop_pairwise cmp R hneg hpos htrans l [] out List.Pairwise.nil h

end SortLemmas

/-! ## The rank induced by the comparator -/

theorem indexOf_nonneg_iff (l : List String) (a : String) : 0 ≤ indexOf l a ↔ a ∈ l := by
  unfold indexOf
  by_cases h : a ∈ l
  · simp [h]
  · simp [h]

theorem indexOf_of_mem {l : List String} {a : String} (h : a ∈ l) :
    indexOf l a = (l.indexOf a : Int) := by
  simp [indexOf, h]

theorem rank_le_tailRank (locale recent : List String) (e : Entry) :
    rank locale recent e ≤ tailRank locale recent := by
  have hL := fun a (ha : a ∈ locale) => List.indexOf_lt_length.mpr ha
  have hR := fun a (ha : a ∈ recent) => List.indexOf_lt_length.mpr ha
  unfold rank tailRank
  split_ifs with h1 h2 h3 h4 h5
  · omega
  · have := hL _ h2; omega
  · have := hR _ h3; omega
  · omega
  · omega
  · omega

theorem rank_eq_tailRank_iff (locale recent : List String) (e : Entry) :
    rank locale recent e = tailRank locale recent ↔
      e.code ≠ "UTF-8" ∧ e.code ∉ locale ∧ e.code ∉ recent ∧ e.code ≠ "<hr>" ∧
        e.code ≠ "UTF-16LE" := by
  have hL := fun a (ha : a ∈ locale) => List.indexOf_lt_length.mpr ha
  have hR := fun a (ha : a ∈ recent) => List.indexOf_lt_length.mpr ha
  unfold rank tailRank
  split_ifs with h1 h2 h3 h4 h5
  · simp [h1]; omega
  · have := hL _ h2; simp [h2]; omega
  · have := hR _ h3; simp [h3]; omega
  · simp [h4]
  · simp [h5]
  · simp [h1, h2, h3, h4, h5]

/-- What the comparator returns, read off the ranks of its two arguments: the lower
rank wins; two entries of one rank below the tail give `-1`; two tail entries are
compared by display name. -/
theorem comparator_cases (lc : String → String → Int) (locale recent : List String)
    (x y : Entry) :
    (rank locale recent x < rank locale recent y ∧
        ∃ c, comparator lc locale recent x y = some c ∧ c < 0) ∨
    (rank locale recent y < rank locale recent x ∧
        ∃ c, comparator lc locale recent x y = some c ∧ 0 < c) ∨
    (rank locale recent x = rank locale recent y ∧
        rank locale recent x < tailRank locale recent ∧
        comparator lc locale recent x y = some (-1)) ∨
    (rank locale recent x = tailRank locale recent ∧
        rank locale recent y = tailRank locale recent ∧
        comparator lc locale recent x y = x.name.map (fun nameA => lc nameA (nameArg y))) := by
  have hL := fun a (ha : a ∈ locale) => List.indexOf_lt_length.mpr ha
  have hR := fun a (ha : a ∈ recent) => List.indexOf_lt_length.mpr ha
  by_cases hxU : x.code = "UTF-8"
  · by_cases hyU : y.code = "UTF-8"
    · right; right; left
      simp [rank, tailRank, comparator, hxU, hyU]
    · left
      refine ⟨?_, -1, by simp [comparator, hxU], by omega⟩
      simp only [rank, hxU, hyU, if_true, if_false]
      split_ifs <;> omega
  by_cases hyU : y.code = "UTF-8"
  · right; left
    refine ⟨?_, 1, by simp [comparator, hxU, hyU], by omega⟩
    simp only [rank, hxU, hyU, if_true, if_false]
    split_ifs <;> omega
  by_cases hxL : x.code ∈ locale
  · by_cases hyL : y.code ∈ locale
    · have c1 : comparator lc locale recent x y =
          some (if (locale.indexOf x.code : Int) > (locale.indexOf y.code : Int)
            then 1 else -1) := by
        simp [comparator, hxU, hyU, indexOf_nonneg_iff, hxL, hyL, indexOf_of_mem]
      have r1 : rank locale recent x = 1 + locale.indexOf x.code := by
        simp [rank, hxU, hxL]
      have r2 : rank locale recent y = 1 + locale.indexOf y.code := by
        simp [rank, hyU, hyL]
      have b1 := hL _ hxL
      rcases Nat.lt_trichotomy (locale.indexOf x.code) (locale.indexOf y.code) with h | h | h
      · left
        refine ⟨by omega, -1, ?_, by omega⟩
        rw [c1, if_neg (by omega)]
      · right; right; left
        refine ⟨by omega, by unfold tailRank; omega, ?_⟩
        rw [c1, if_neg (by omega)]
      · right; left
        refine ⟨by omega, 1, ?_, by omega⟩
        rw [c1, if_pos (by omega)]
    · left
      refine ⟨?_, -1, by simp [comparator, hxU, hyU, indexOf_nonneg_iff, hxL, hyL],
        by omega⟩
      have b1 := hL _ hxL
      simp only [rank, hxU, hyU, hxL, hyL, if_true, if_false]
      split_ifs <;> omega
  by_cases hyL : y.code ∈ locale
  · right; left
    refine ⟨?_, 1, by simp [comparator, hxU, hyU, indexOf_nonneg_iff, hxL, hyL], by omega⟩
    have b1 := hL _ hyL
    simp only [rank, hxU, hyU, hxL, hyL, if_true, if_false]
    split_ifs <;> omega
  by_cases hxR : x.code ∈ recent
  · by_cases hyR : y.code ∈ recent
    · have c1 : comparator lc locale recent x y =
          some (if (recent.indexOf x.code : Int) > (recent.indexOf y.code : Int)
            then 1 else -1) := by
        simp [comparator, hxU, hyU, indexOf_nonneg_iff, hxL, hyL, hxR, hyR, indexOf_of_mem]
      have r1 : rank locale recent x = 1 + locale.length + recent.indexOf x.code := by
        simp [rank, hxU, hxL, hxR]
      have r2 : rank locale recent y = 1 + locale.length + recent.indexOf y.code := by
        simp [rank, hyU, hyL, hyR]
      have b1 := hR _ hxR
      rcases Nat.lt_trichotomy (recent.indexOf x.code) (recent.indexOf y.code) with h | h | h
      · left
        refine ⟨by omega, -1, ?_, by omega⟩
        rw [c1, if_neg (by omega)]
      · right; right; left
        refine ⟨by omega, by unfold tailRank; omega, ?_⟩
        rw [c1, if_neg (by omega)]
      · right; left
        refine ⟨by omega, 1, ?_, by omega⟩
        rw [c1, if_pos (by omega)]
    · left
      refine ⟨?_, -1,
        by simp [comparator, hxU, hyU, indexOf_nonneg_iff, hxL, hyL, hxR, hyR], by omega⟩
      have b1 := hR _ hxR
      simp only [rank, hxU, hyU, hxL, hyL, hxR, hyR, if_true, if_false]
      split_ifs <;> omega
  by_cases hyR : y.code ∈ recent
  · right; left
    refine ⟨?_, 1,
      by simp [comparator, hxU, hyU, indexOf_nonneg_iff, hxL, hyL, hxR, hyR], by omega⟩
    have b1 := hR _ hyR
    simp only [rank, hxU, hyU, hxL, hyL, hxR, hyR, if_true, if_false]
    split_ifs <;> omega
  have cT : comparator lc locale recent x y =
      if x.code = "<hr>" then some (-1)
      else if y.code = "<hr>" then some 1
      else if x.code = "UTF-16LE" then some (-1)
      else if y.code = "UTF-16LE" then some 1
      else x.name.map (fun nameA => lc nameA (nameArg y)) := by
    simp only [comparator, ge_iff_le, indexOf_nonneg_iff, hxL, hyL, hxR, hyR, if_neg hxU,
      if_neg hyU, and_self, if_false]
    cases x.name <;> rfl
  have rT : ∀ e : Entry, e.code ≠ "UTF-8" → e.code ∉ locale → e.code ∉ recent →
      rank locale recent e =
        if e.code = "<hr>" then 1 + locale.length + recent.length
        else if e.code = "UTF-16LE" then 2 + locale.length + recent.length
        else 3 + locale.length + recent.length := by
    intro e h1 h2 h3
    simp only [rank, if_neg h1, if_neg h2, if_neg h3]
  rw [cT, rT x hxU hxL hxR, rT y hyU hyL hyR]
  unfold tailRank
  by_cases hxH : x.code = "<hr>"
  · by_cases hyH : y.code = "<hr>"
    · right; right; left
      simp only [if_pos hxH, if_pos hyH]
      exact ⟨trivial, by omega, trivial⟩
    · left
      simp only [if_pos hxH, if_neg hyH]
      refine ⟨by split_ifs <;> omega, -1, rfl, by omega⟩
  by_cases hyH : y.code = "<hr>"
  · right; left
    simp only [if_neg hxH, if_pos hyH]
    refine ⟨by split_ifs <;> omega, 1, rfl, by omega⟩
  by_cases hxW : x.code = "UTF-16LE"
  · by_cases hyW : y.code = "UTF-16LE"
    · right; right; left
      simp only [if_neg hxH, if_neg hyH, if_pos hxW, if_pos hyW]
      exact ⟨trivial, by omega, trivial⟩
    · left
      simp only [if_neg hxH, if_neg hyH, if_pos hxW, if_neg hyW]
      exact ⟨by omega, -1, rfl, by omega⟩
  by_cases hyW : y.code = "UTF-16LE"
  · right; left
    simp only [if_neg hxH, if_neg hyH, if_neg hxW, if_pos hyW]
    exact ⟨by omega, 1, rfl, by omega⟩
  right; right; right
  simp only [if_neg hxH, if_neg hyH, if_neg hxW, if_neg hyW]
  exact ⟨trivial, trivial, trivial⟩

theorem comparator_rank_neg (lc : String → String → Int) (locale recent : List String)
    (x y : Entry) (c : Int) (h : comparator lc locale recent x y = some c) (hc : c < 0) :
    rank locale recent x ≤ rank locale recent y := by
  rcases comparator_cases lc locale recent x y with
    ⟨hr, _⟩ | ⟨_, c', hc', hpos⟩ | ⟨hr, _⟩ | ⟨hx, hy, _⟩
  · omega
  · rw [h] at hc'
    cases hc'
    omega
  · omega
  · omega

theorem comparator_rank_pos (lc : String → String → Int) (locale recent : List String)
    (x y : Entry) (c : Int) (h : comparator lc locale recent x y = some c) (hc : ¬ c < 0) :
    rank locale recent y ≤ rank locale recent x := by
  rcases comparator_cases lc locale recent x y with
    ⟨_, c', hc', hneg⟩ | ⟨hr, _⟩ | ⟨_, _, hc'⟩ | ⟨hx, hy, _⟩
  · rw [h] at hc'
    cases hc'
    omega
  · omega
  · rw [h] at hc'
    cases hc'
    omega
  · omega

theorem comparator_isSome (lc : String → String → Int) (locale recent : List String)
    (x y : Entry) (hx : x.name = none → x.code = "<hr>") :
    (comparator lc locale recent x y).isSome := by
  rcases comparator_cases lc locale recent x y with
    ⟨_, c, hc, _⟩ | ⟨_, c, hc, _⟩ | ⟨_, _, hc⟩ | ⟨hrx, _, hc⟩
  · simp [hc]
  · simp [hc]
  · simp [hc]
  · rw [hc]
    have hne := ((rank_eq_tailRank_iff locale recent x).mp hrx).2.2.2.1
    cases hn : x.name with
    | none => exact absurd (hx hn) hne
    | some n => simp

theorem getEncodingList_isSome (lc : String → String → Int) (locale recent : List String)
    (catalog : List Entry) (hwf : wellFormed catalog) :
    (getEncodingList lc locale recent catalog).isSome := by
  apply sort_isSome
  intro a ha b _
  exact comparator_isSome lc locale recent a b (hwf a ha)

theorem perm_of_getEncodingList (lc : String → String → Int) (locale recent : List String)
    (catalog out : List Entry) (h : getEncodingList lc locale recent catalog = some out) :
    out.Perm catalog :=
  sort_perm _ _ _ h

/-- The output is ordered by rank, whatever the display-name comparison does. -/
theorem getEncodingList_rank_sorted (lc : String → String → Int)
    (locale recent : List String) (catalog out : List Entry)
    (h : getEncodingList lc locale recent catalog = some out) :
    out.Pairwise (fun a b => rank locale recent a ≤ rank locale recent b) :=
  sort_pairwise (comparator lc locale recent)
    (fun a b => rank locale recent a ≤ rank locale recent b)
    (comparator_rank_neg lc locale recent) (comparator_rank_pos lc locale recent)
    (fun _ _ _ h1 h2 => Nat.le_trans h1 h2) catalog out h

theorem precedes_of_rank_lt (locale recent : List String) (out : List Entry)
    (hs : out.Pairwise (fun a b => rank locale recent a ≤ rank locale recent b))
    (a b : Entry) (ha : a ∈ out) (hb : b ∈ out)
    (hab : rank locale recent a < rank locale recent b) :
    Precedes out a b := by
  refine ⟨ha, hb, ?_⟩
  intro i j hi hj
  by_contra hij
  have hji : j ≤ i := Nat.le_of_not_lt hij
  obtain ⟨hi', hia⟩ := List.getElem?_eq_some_iff.mp hi
  obtain ⟨hj', hjb⟩ := List.getElem?_eq_some_iff.mp hj
  rcases Nat.lt_or_eq_of_le hji with hlt | heq
  · have := List.pairwise_iff_getElem.mp hs j i hj' hi' hlt
    rw [hia, hjb] at this
    omega
  · subst heq
    rw [hia] at hjb
    subst hjb
    omega

/-- A successful run of `getEncodingList` puts the lower rank first. -/
theorem getEncodingList_precedes (lc : String → String → Int)
    (locale recent : List String) (catalog out : List Entry)
    (h : getEncodingList lc locale recent catalog = some out)
    (a b : Entry) (ha : a ∈ catalog) (hb : b ∈ catalog)
    (hab : rank locale recent a < rank locale recent b) :
    Precedes out a b :=
  precedes_of_rank_lt locale recent out
    (getEncodingList_rank_sorted lc locale recent catalog out h) a b
    ((perm_of_getEncodingList lc locale recent catalog out h).symm.subset ha)
    ((perm_of_getEncodingList lc locale recent catalog out h).symm.subset hb) hab

theorem rank_eq_zero_iff (locale recent : List String) (e : Entry) :
    rank locale recent e = 0 ↔ e.code = "UTF-8" := by
  unfold rank
  split_ifs with h1 <;> simp [h1]

theorem rank_locale (locale recent : List String) (e : Entry)
    (h1 : e.code ≠ "UTF-8") (h2 : e.code ∈ locale) :
    rank locale recent e = 1 + locale.indexOf e.code := by
  simp only [rank, if_neg h1, if_pos h2]

theorem rank_recent (locale recent : List String) (e : Entry)
    (h1 : e.code ≠ "UTF-8") (h2 : e.code ∉ locale) (h3 : e.code ∈ recent) :
    rank locale recent e = 1 + locale.length + recent.indexOf e.code := by
  simp only [rank, if_neg h1, if_neg h2, if_pos h3]

theorem rank_separator (locale recent : List String) (e : Entry)
    (h2 : e.code ∉ locale) (h3 : e.code ∉ recent) (h4 : e.code = "<hr>") :
    rank locale recent e = 1 + locale.length + recent.length := by
  have h1 : e.code ≠ "UTF-8" := by rw [h4]; decide
  simp only [rank, if_neg h1, if_neg h2, if_neg h3, if_pos h4]

theorem rank_utf16 (locale recent : List String) (e : Entry)
    (h2 : e.code ∉ locale) (h3 : e.code ∉ recent) (h5 : e.code = "UTF-16LE") :
    rank locale recent e = 2 + locale.length + recent.length := by
  have h1 : e.code ≠ "UTF-8" := by rw [h5]; decide
  have h4 : e.code ≠ "<hr>" := by rw [h5]; decide
  simp only [rank, if_neg h1, if_neg h2, if_neg h3, if_neg h4, if_pos h5]

theorem rank_lt_of_mem_locale (locale recent : List String) (e : Entry)
    (h2 : e.code ∈ locale) : rank locale recent e < 1 + locale.length := by
  have := List.indexOf_lt_length.mpr h2
  unfold rank
  split_ifs <;> omega

theorem rank_lt_of_mem_recent (locale recent : List String) (e : Entry)
    (h3 : e.code ∈ recent) : rank locale recent e < 1 + locale.length + recent.length := by
  have := List.indexOf_lt_length.mpr h3
  by_cases h2 : e.code ∈ locale
  · have := rank_lt_of_mem_locale locale recent e h2
    omega
  · unfold rank
    split_ifs <;> omega

theorem rank_ge_of_not_mem_locale (locale recent : List String) (e : Entry)
    (h1 : e.code ≠ "UTF-8") (h2 : e.code ∉ locale) :
    1 + locale.length ≤ rank locale recent e := by
  simp only [rank, if_neg h1, if_neg h2]
  split_ifs <;> omega

theorem rank_ge_of_not_mem (locale recent : List String) (e : Entry)
    (h1 : e.code ≠ "UTF-8") (h2 : e.code ∉ locale) (h3 : e.code ∉ recent) :
    1 + locale.length + recent.length ≤ rank locale recent e := by
  simp only [rank, if_neg h1, if_neg h2, if_neg h3]
  split_ifs <;> omega

theorem compareChars_swap : ∀ a b : List Char, compareChars b a = - compareChars a b
  | [], [] => by simp [compareChars]
  | [], _ :: _ => by simp [compareChars]
  | _ :: _, [] => by simp [compareChars]
  | x :: xs, y :: ys => by
    have ih := compareChars_swap xs ys
    simp only [compareChars]
    split_ifs <;> omega

theorem compareChars_trans : ∀ a b c : List Char,
    compareChars a b ≤ 0 → compareChars b c ≤ 0 → compareChars a c ≤ 0
  | [], _, [] => by simp [compareChars]
  | [], _, _ :: _ => by simp [compareChars]
  | _ :: _, [], _ => by simp [compareChars]
  | _ :: _, _ :: _, [] => by simp [compareChars]
  | x :: xs, y :: ys, z :: zs => by
    have ih := compareChars_trans xs ys zs
    simp only [compareChars]
    split_ifs <;> omega

theorem ordinalCompare_isTotalPreorderCompare : IsTotalPreorderCompare ordinalCompare := by
  constructor
  · intro s t
    unfold ordinalCompare
    rw [compareChars_swap s.data t.data]
    omega
  · intro s t u
    exact compareChars_trans s.data t.data u.data

theorem wellFormed_sampleCatalog : wellFormed sampleCatalog := by
  intro e he
  simp only [sampleCatalog, List.mem_cons, List.mem_singleton, List.not_mem_nil, or_false] at he
  rcases he with rfl | rfl | rfl | rfl | rfl | rfl | rfl <;> simp

theorem wellFormed_BASE_ENCODINGS (getMessage : String → String) :
    wellFormed (BASE_ENCODINGS getMessage) := by
  intro e he hn
  simp only [BASE_ENCODINGS, List.mem_cons, List.mem_singleton, List.not_mem_nil, or_false] at he
  rcases he with rfl | he
  · rfl
  · exfalso
    repeat (rcases he with rfl | he; simp at hn)

theorem nodup_codes_BASE_ENCODINGS (getMessage : String → String) :
    ((BASE_ENCODINGS getMessage).map Entry.code).Nodup := by
  simp only [BASE_ENCODINGS, List.map]
  decide

/-- Two tail entries are compared by display name. -/
theorem comparator_tail (lc : String → String → Int) (locale recent : List String)
    (x y : Entry) (c : Int) (h : comparator lc locale recent x y = some c)
    (hx : rank locale recent x = tailRank locale recent)
    (hy : rank locale recent y = tailRank locale recent) :
    c = lc (nameArg x) (nameArg y) := by
  rcases comparator_cases lc locale recent x y with
    ⟨hr, _⟩ | ⟨hr, _⟩ | ⟨_, hr, _⟩ | ⟨_, _, hc⟩
  · omega
  · omega
  · omega
  · rw [h] at hc
    cases hn : x.name with
    | none => simp [hn] at hc
    | some n =>
      simp only [hn, Option.map_some', Option.some.injEq] at hc
      simp [nameArg, hn, hc]

theorem getEncodingList_rankName_sorted (lc : String → String → Int)
    (hlc : IsTotalPreorderCompare lc)
    (locale recent : List String) (catalog out : List Entry)
    (h : getEncodingList lc locale recent catalog = some out) :
    out.Pairwise (rankNameLe lc locale recent) := by
  refine sort_pairwise (comparator lc locale recent) (rankNameLe lc locale recent)
    ?_ ?_ ?_ catalog out h
  · intro x y c hc hneg
    refine ⟨comparator_rank_neg lc locale recent x y c hc hneg, ?_⟩
    intro hx hy
    rw [← comparator_tail lc locale recent x y c hc hx hy]
    omega
  · intro x y c hc hpos
    refine ⟨comparator_rank_pos lc locale recent x y c hc hpos, ?_⟩
    intro hy hx
    have hceq := comparator_tail lc locale recent x y c hc hx hy
    by_contra hgt
    have : lc (nameArg x) (nameArg y) < 0 := (hlc.1 _ _).mpr (by omega)
    omega
  · intro x y z hxy hyz
    refine ⟨Nat.le_trans hxy.1 hyz.1, ?_⟩
    intro hx hz
    have hy : rank locale recent y = tailRank locale recent := by
      have := rank_le_tailRank locale recent y
      have := hxy.1
      omega
    exact hlc.2 _ _ _ (hxy.2 hx hy) (hyz.2 hy hz)

/-- A list ordered by rank splits into the entries below the tail rank and the tail. -/
theorem split_tail (locale recent : List String) :
    ∀ l : List Entry, l.Pairwise (fun a b => rank locale recent a ≤ rank locale recent b) →
      ∃ front tail, l = front ++ tail ∧ (∀ e ∈ front, ¬ isTail locale recent e) ∧
        (∀ e ∈ tail, isTail locale recent e) := by
  intro l
  induction l with
  | nil => intro _; exact ⟨[], [], rfl, by simp, by simp⟩
  | cons x t ih =>
    intro hp
    have hc := List.pairwise_cons.mp hp
    by_cases hx : isTail locale recent x
    · refine ⟨[], x :: t, rfl, by simp, ?_⟩
      intro e he
      rcases List.mem_cons.mp he with rfl | he
      · exact hx
      · have h1 := hc.1 e he
        have h2 := (rank_eq_tailRank_iff locale recent x).mpr hx
        have h3 := rank_le_tailRank locale recent e
        exact (rank_eq_tailRank_iff locale recent e).mp (by omega)
    · obtain ⟨front, tail, hl, hf, ht⟩ := ih hc.2
      refine ⟨x :: front, tail, by rw [hl]; rfl, ?_, ht⟩
      intro e he
      rcases List.mem_cons.mp he with rfl | he
      · exact hx
      · exact hf e he

/-! ## Splitting and joining the stored string -/

theorem splitChars_ne_nil (s : List Char) : splitChars s ≠ [] := by
  cases s with
  | nil => simp [splitChars]
  | cons c cs =>
    unfold splitChars
    split_ifs
    · simp
    · split <;> simp

theorem splitChars_of_no_comma (w : List Char) (hw : ',' ∉ w) : splitChars w = [w] := by
  induction w with
  | nil => rfl
  | cons c cs ih =>
    have hc : c ≠ ',' := fun h => hw (h ▸ List.mem_cons_self _ _)
    have hcs : ',' ∉ cs := fun h => hw (List.mem_cons_of_mem _ h)
    simp [splitChars, hc, ih hcs]

theorem splitChars_append_comma (w rest : List Char) (hw : ',' ∉ w) :
    splitChars (w ++ ',' :: rest) = w :: splitChars rest := by
  induction w with
  | nil => simp [splitChars]
  | cons c cs ih =>
    have hc : c ≠ ',' := fun h => hw (h ▸ List.mem_cons_self _ _)
    have hcs : ',' ∉ cs := fun h => hw (List.mem_cons_of_mem _ h)
    simp [splitChars, hc, ih hcs]

theorem splitChars_joinChars (l : List (List Char)) (hne : l ≠ [])
    (hl : ∀ w ∈ l, ',' ∉ w) : splitChars (joinChars l) = l := by
  induction l with
  | nil => exact absurd rfl hne
  | cons w ws ih =>
    cases ws with
    | nil => exact splitChars_of_no_comma w (hl w (List.mem_cons_self _ _))
    | cons w' ws' =>
      have hw := hl w (List.mem_cons_self _ _)
      have := ih (by simp) (fun v hv => hl v (List.mem_cons_of_mem _ hv))
      simp only [joinChars]
      rw [splitChars_append_comma _ _ hw, this]

theorem not_comma_mem_of_mem_splitChars (s : List Char) :
    ∀ w ∈ splitChars s, ',' ∉ w := by
  induction s with
  | nil => simp [splitChars]
  | cons c cs ih =>
    intro w hw
    unfold splitChars at hw
    by_cases hc : c = ','
    · simp only [hc, if_true, List.mem_cons] at hw
      rcases hw with rfl | hw
      · simp
      · exact ih w hw
    · simp only [hc, if_false] at hw
      cases hs : splitChars cs with
      | nil => exact absurd hs (splitChars_ne_nil cs)
      | cons v vs =>
        rw [hs] at hw ih
        simp only [List.mem_cons] at hw
        rcases hw with rfl | hw
        · intro hmem
          rcases List.mem_cons.mp hmem with h | h
          · exact hc h.symm
          · exact ih v (List.mem_cons_self _ _) h
        · exact ih w (List.mem_cons_of_mem _ hw)

theorem splitComma_joinComma (l : List String) (hne : l ≠ [])
    (hl : ∀ c ∈ l, ',' ∉ c.data) : splitComma (joinComma l) = l := by
  unfold splitComma joinComma
  rw [splitChars_joinChars]
  · simp [List.map_map, Function.comp_def]
  · simpa using hne
  · intro w hw
    obtain ⟨c, hc, rfl⟩ := List.mem_map.mp hw
    exact hl c hc

theorem not_comma_mem_of_mem_splitComma (s c : String) (hc : c ∈ splitComma s) :
    ',' ∉ c.data := by
  unfold splitComma at hc
  obtain ⟨w, hw, rfl⟩ := List.mem_map.mp hc
  exact not_comma_mem_of_mem_splitChars s.data w hw

theorem recentToStore_no_comma (stored : Option String) (e : String) (he : ',' ∉ e.data) :
    ∀ c ∈ recentToStore stored e, ',' ∉ c.data := by
  intro c hc
  unfold recentToStore at hc
  rcases List.mem_cons.mp hc with rfl | hc
  · exact he
  · exact not_comma_mem_of_mem_splitComma _ c
      (List.mem_of_mem_filter (List.mem_of_mem_take hc))

/-- What `initializeEncodingLists` reloads after a call with a comma-free code. -/
theorem initialize_record (stored : Option String) (e : String) (he : ',' ∉ e.data) :
    initializeEncodingLists (recordRecentlySelectedEncoding stored e) =
      (recentToStore stored e).filter (fun c => decide (c ≠ "")) := by
  unfold initializeEncodingLists recordRecentlySelectedEncoding
  simp only [Option.getD_some]
  rw [splitComma_joinComma _ (by simp [recentToStore]) (recentToStore_no_comma stored e he)]

theorem recentToStore_eq (stored : Option String) (e : String) :
    recentToStore stored e =
      e :: ((initializeEncodingLists stored).filter (fun c => decide (c ≠ e))).take 2 := by
  unfold recentToStore initializeEncodingLists
  simp only [List.filter_filter]
  congr 2
  apply List.filter_congr
  intro x _
  simp [Bool.and_comm]

theorem initializeEncodingLists_joinComma (old : List String)
    (hold : ∀ c ∈ old, c ≠ "" ∧ ',' ∉ c.data) :
    initializeEncodingLists (some (joinComma old)) = old := by
  unfold initializeEncodingLists
  simp only [Option.getD_some]
  cases old with
  | nil => decide
  | cons c cs =>
    rw [splitComma_joinComma _ (by simp) (fun c hc => (hold c hc).2)]
    apply List.filter_eq_self.mpr
    intro x hx
    simpa using (hold x hx).1

/-! ## The ranked encoding list -/

/-- C1. For every catalog, locale-preference list and recency list, the sequence
returned by `getEncodingList` is a permutation of the catalog: same length, same number
of occurrences of every entry, also when the lists name codes outside the catalog; and a
sequence is returned whenever every entry other than the separator has a display name. -/
theorem getEncodingList_permutation (lc : String → String → Int)
    (locale recent : List String) (catalog : List Entry) :
    (wellFormed catalog → (getEncodingList lc locale recent catalog).isSome) ∧
    ∀ out, getEncodingList lc locale recent catalog = some out →
      out.Perm catalog ∧ out.length = catalog.length ∧
        ∀ e, out.count e = catalog.count e := by
  refine ⟨getEncodingList_isSome lc locale recent catalog, ?_⟩
  intro out h
  have hp := perm_of_getEncodingList lc locale recent catalog out h
  exact ⟨hp, hp.length_eq, fun e => hp.count_eq e⟩

/-- C2. For every catalog with exactly one entry `u` of code `'UTF-8'`, and every
locale-preference and recency list, the first element of the output of
`getEncodingList` is `u`. -/
theorem getEncodingList_utf8_first (lc : String → String → Int)
    (locale recent : List String) (catalog : List Entry) (u : Entry)
    (hu : catalog.filter (fun e => decide (e.code = "UTF-8")) = [u]) :
    (wellFormed catalog → (getEncodingList lc locale recent catalog).isSome) ∧
    ∀ out, getEncodingList lc locale recent catalog = some out → out.head? = some u := by
  refine ⟨getEncodingList_isSome lc locale recent catalog, ?_⟩
  intro out h
  have hp := perm_of_getEncodingList lc locale recent catalog out h
  have hs := getEncodingList_rank_sorted lc locale recent catalog out h
  have hmem : ∀ e, e ∈ catalog ∧ e.code = "UTF-8" ↔ e = u := by
    intro e
    have : e ∈ catalog.filter (fun e => decide (e.code = "UTF-8")) ↔ e ∈ [u] := by rw [hu]
    simpa [List.mem_filter] using this
  have hu1 := (hmem u).mpr rfl
  cases out with
  | nil =>
    have := hp.symm.subset hu1.1
    simp at this
  | cons x t =>
    simp only [List.head?_cons, Option.some.injEq]
    have hx : x ∈ catalog := hp.subset (List.mem_cons_self _ _)
    rcases List.mem_cons.mp (hp.symm.subset hu1.1) with hxu | hut
    · exact hxu.symm
    · have hle := (List.pairwise_cons.mp hs).1 u hut
      have hu0 := (rank_eq_zero_iff locale recent u).mpr hu1.2
      have hx0 : rank locale recent x = 0 := by omega
      exact (hmem x).mp ⟨hx, (rank_eq_zero_iff locale recent x).mp hx0⟩

/-- C3. For every catalog with pairwise distinct codes, in the output of
`getEncodingList` every non-UTF-8 entry whose code is in the locale-preference list
precedes every non-UTF-8 entry whose code is not, and two such locale entries appear in
the order of their first positions in the locale-preference list, whatever the recency
list contains. -/
theorem getEncodingList_locale_order (lc : String → String → Int)
    (locale recent : List String) (catalog : List Entry)
    (_hd : (catalog.map Entry.code).Nodup) :
    (wellFormed catalog → (getEncodingList lc locale recent catalog).isSome) ∧
    ∀ out, getEncodingList lc locale recent catalog = some out →
      (∀ a ∈ catalog, ∀ b ∈ catalog, a.code ≠ "UTF-8" → b.code ≠ "UTF-8" →
        a.code ∈ locale → b.code ∉ locale → Precedes out a b) ∧
      (∀ a ∈ catalog, ∀ b ∈ catalog, a.code ≠ "UTF-8" → b.code ≠ "UTF-8" →
        a.code ∈ locale → b.code ∈ locale →
        indexOf locale a.code < indexOf locale b.code → Precedes out a b) := by
  refine ⟨getEncodingList_isSome lc locale recent catalog, ?_⟩
  intro out h
  have hprec := getEncodingList_precedes lc locale recent catalog out h
  refine ⟨?_, ?_⟩
  · intro a _ b _ _ hbU haL hbL
    refine hprec _ _ (by assumption) (by assumption) ?_
    have h1 := rank_lt_of_mem_locale locale recent a haL
    have h2 := rank_ge_of_not_mem_locale locale recent b hbU hbL
    omega
  · intro a _ b _ haU hbU haL hbL hlt
    refine hprec _ _ (by assumption) (by assumption) ?_
    rw [rank_locale locale recent a haU haL, rank_locale locale recent b hbU hbL]
    rw [indexOf_of_mem haL, indexOf_of_mem hbL] at hlt
    omega

/-- C4. For every catalog with pairwise distinct codes, among the entries that are
neither UTF-8 nor in the locale-preference list, those whose code is in the recency list
come after all locale entries, before every entry in neither list, and in recency-list
order.  The catalog `[UTF-8, GBK, Big5]` with locale list `[GBK]` and recency list
`[Big5]` is ranked `[UTF-8, GBK, Big5]`. -/
theorem getEncodingList_recency_order (lc : String → String → Int)
    (locale recent : List String) (catalog : List Entry)
    (_hd : (catalog.map Entry.code).Nodup) :
    ((wellFormed catalog → (getEncodingList lc locale recent catalog).isSome) ∧
    ∀ out, getEncodingList lc locale recent catalog = some out →
      (∀ a ∈ catalog, ∀ b ∈ catalog, a.code ∈ locale →
        b.code ≠ "UTF-8" → b.code ∉ locale → b.code ∈ recent → Precedes out a b) ∧
      (∀ b ∈ catalog, ∀ c ∈ catalog, b.code ≠ "UTF-8" → b.code ∉ locale →
        b.code ∈ recent → c.code ≠ "UTF-8" → c.code ∉ locale → c.code ∉ recent →
        Precedes out b c) ∧
      (∀ a ∈ catalog, ∀ b ∈ catalog, a.code ≠ "UTF-8" → a.code ∉ locale →
        a.code ∈ recent → b.code ≠ "UTF-8" → b.code ∉ locale → b.code ∈ recent →
        indexOf recent a.code < indexOf recent b.code → Precedes out a b)) ∧
    (∀ nU nG nB : Option String,
      getEncodingList lc ["GBK"] ["Big5"] [⟨"UTF-8", nU⟩, ⟨"GBK", nG⟩, ⟨"Big5", nB⟩]
        = some [⟨"UTF-8", nU⟩, ⟨"GBK", nG⟩, ⟨"Big5", nB⟩]) := by
  refine ⟨⟨getEncodingList_isSome lc locale recent catalog, ?_⟩, ?_⟩
  · intro out h
    have hprec := getEncodingList_precedes lc locale recent catalog out h
    refine ⟨?_, ?_, ?_⟩
    · intro a _ b _ haL hbU hbL _
      refine hprec _ _ (by assumption) (by assumption) ?_
      have h1 := rank_lt_of_mem_locale locale recent a haL
      have h2 := rank_ge_of_not_mem_locale locale recent b hbU hbL
      omega
    · intro b _ c _ _ _ hbR hcU hcL hcR
      refine hprec _ _ (by assumption) (by assumption) ?_
      have h1 := rank_lt_of_mem_recent locale recent b hbR
      have h2 := rank_ge_of_not_mem locale recent c hcU hcL hcR
      omega
    · intro a _ b _ haU haL haR hbU hbL hbR hlt
      refine hprec _ _ (by assumption) (by assumption) ?_
      rw [rank_recent locale recent a haU haL haR, rank_recent locale recent b hbU hbL hbR]
      rw [indexOf_of_mem haR, indexOf_of_mem hbR] at hlt
      omega
  · intro nU nG nB
    simp [getEncodingList, sort, sortLoop, insertSorted, comparator, indexOf]

/-- C5. For every catalog with pairwise distinct codes that contains the separator
entry `s` of code `'<hr>'`, that code being in neither list: in the output of
`getEncodingList` the separator comes after every entry whose code is in the locale or
the recency list and before every other non-UTF-8 entry. -/
theorem getEncodingList_separator_position (lc : String → String → Int)
    (locale recent : List String) (catalog : List Entry)
    (_hd : (catalog.map Entry.code).Nodup)
    (s : Entry) (_hs : s ∈ catalog) (hsc : s.code = "<hr>")
    (hsL : "<hr>" ∉ locale) (hsR : "<hr>" ∉ recent) :
    (wellFormed catalog → (getEncodingList lc locale recent catalog).isSome) ∧
    ∀ out, getEncodingList lc locale recent catalog = some out →
      (∀ a ∈ catalog, a.code ∈ locale ∨ a.code ∈ recent → Precedes out a s) ∧
      (∀ b ∈ catalog, b.code ≠ "UTF-8" → b.code ∉ locale → b.code ∉ recent →
        b.code ≠ "<hr>" → Precedes out s b) := by
  refine ⟨getEncodingList_isSome lc locale recent catalog, ?_⟩
  intro out h
  have hprec := getEncodingList_precedes lc locale recent catalog out h
  have hr := rank_separator locale recent s (by rw [hsc]; exact hsL)
    (by rw [hsc]; exact hsR) hsc
  refine ⟨?_, ?_⟩
  · intro a _ ha
    refine hprec _ _ (by assumption) (by assumption) ?_
    rcases ha with ha | ha
    · have := rank_lt_of_mem_locale locale recent a ha
      omega
    · have := rank_lt_of_mem_recent locale recent a ha
      omega
  · intro b _ hbU hbL hbR hbH
    refine hprec _ _ (by assumption) (by assumption) ?_
    rw [hr]
    simp only [rank, if_neg hbU, if_neg hbL, if_neg hbR, if_neg hbH]
    split_ifs <;> omega

/-- C6. For every catalog with pairwise distinct codes that contains an entry `w` of
code `'UTF-16LE'`, that code being in neither list: in the output of `getEncodingList`
`w` comes after the separator, after UTF-8 and after all locale and recency entries,
and before every remaining entry, whatever the display names are. -/
theorem getEncodingList_utf16le_position (lc : String → String → Int)
    (locale recent : List String) (catalog : List Entry)
    (_hd : (catalog.map Entry.code).Nodup)
    (w : Entry) (_hw : w ∈ catalog) (hwc : w.code = "UTF-16LE")
    (hwL : "UTF-16LE" ∉ locale) (hwR : "UTF-16LE" ∉ recent) :
    (wellFormed catalog → (getEncodingList lc locale recent catalog).isSome) ∧
    ∀ out, getEncodingList lc locale recent catalog = some out →
      (∀ a ∈ catalog, a.code = "<hr>" ∨ a.code = "UTF-8" ∨ a.code ∈ locale ∨
        a.code ∈ recent → Precedes out a w) ∧
      (∀ b ∈ catalog, isTail locale recent b → Precedes out w b) := by
  refine ⟨getEncodingList_isSome lc locale recent catalog, ?_⟩
  intro out h
  have hprec := getEncodingList_precedes lc locale recent catalog out h
  have hr := rank_utf16 locale recent w (by rw [hwc]; exact hwL)
    (by rw [hwc]; exact hwR) hwc
  refine ⟨?_, ?_⟩
  · intro a _ ha
    refine hprec _ _ (by assumption) (by assumption) ?_
    rw [hr]
    by_cases haU : a.code = "UTF-8"
    · rw [(rank_eq_zero_iff locale recent a).mpr haU]
      omega
    by_cases haL : a.code ∈ locale
    · have := rank_lt_of_mem_locale locale recent a haL
      omega
    by_cases haR : a.code ∈ recent
    · have := rank_lt_of_mem_recent locale recent a haR
      omega
    rcases ha with ha | ha | ha | ha
    · rw [rank_separator locale recent a haL haR ha]
      omega
    · exact absurd ha haU
    · exact absurd ha haL
    · exact absurd ha haR
  · intro b _ hb
    refine hprec _ _ (by assumption) (by assumption) ?_
    rw [hr, (rank_eq_tailRank_iff locale recent b).mpr hb]
    unfold tailRank
    omega

/-- C7. For every catalog with pairwise distinct codes, when the display-name comparison
is that of a total preorder, the entries that are not UTF-8, not the separator, not
UTF-16LE and in neither list form the tail of the output of `getEncodingList`, in
non-decreasing order of display name.  The catalog
`[UTF-8, Windows-1252, <hr>, UTF-16LE, Shift_JIS]` with empty lists, the name of
Shift_JIS coming before that of Windows-1252, is ranked
`[UTF-8, <hr>, UTF-16LE, Shift_JIS, Windows-1252]`. -/
theorem getEncodingList_tail_sorted_by_name (lc : String → String → Int)
    (hlc : IsTotalPreorderCompare lc)
    (locale recent : List String) (catalog : List Entry)
    (_hd : (catalog.map Entry.code).Nodup) :
    ((wellFormed catalog → (getEncodingList lc locale recent catalog).isSome) ∧
    ∀ out, getEncodingList lc locale recent catalog = some out →
      ∃ front tail, out = front ++ tail ∧
        (∀ e ∈ front, ¬ isTail locale recent e) ∧
        (∀ e ∈ tail, isTail locale recent e) ∧
        tail.Pairwise (fun a b => lc (nameArg a) (nameArg b) ≤ 0)) ∧
    (∀ nU nW nL nS : String, lc nS nW < 0 →
      getEncodingList lc [] []
        [⟨"UTF-8", some nU⟩, ⟨"Windows-1252", some nW⟩, ⟨"<hr>", none⟩,
          ⟨"UTF-16LE", some nL⟩, ⟨"Shift_JIS", some nS⟩]
        = some [⟨"UTF-8", some nU⟩, ⟨"<hr>", none⟩, ⟨"UTF-16LE", some nL⟩,
          ⟨"Shift_JIS", some nS⟩, ⟨"Windows-1252", some nW⟩]) := by
  refine ⟨⟨getEncodingList_isSome lc locale recent catalog, ?_⟩, ?_⟩
  · intro out h
    obtain ⟨front, tail, hl, hf, ht⟩ := split_tail locale recent out
      (getEncodingList_rank_sorted lc locale recent catalog out h)
    refine ⟨front, tail, hl, hf, ht, ?_⟩
    have hs := getEncodingList_rankName_sorted lc hlc locale recent catalog out h
    rw [hl] at hs
    have hs' := (List.pairwise_append.mp hs).2.1
    refine hs'.imp_of_mem ?_
    intro a b ha hb hab
    exact hab.2 ((rank_eq_tailRank_iff locale recent a).mpr (ht a ha))
      ((rank_eq_tailRank_iff locale recent b).mpr (ht b hb))
  · intro nU nW nL nS hlt
    simp [getEncodingList, sort, sortLoop, insertSorted, comparator, indexOf, nameArg, hlt]

/-- C8. `getEncodingList` never fails on a catalog in which every entry other than the
one-element separator carries a display name: every comparator call on two entries of
the catalog returns a number (the separator's missing name is never compared), a
sequence is returned, the empty catalog yields the empty sequence and a one-entry
catalog yields that entry. -/
theorem getEncodingList_never_fails (lc : String → String → Int)
    (locale recent : List String) (catalog : List Entry) (hwf : wellFormed catalog) :
    (∀ a ∈ catalog, ∀ b ∈ catalog, ∃ c, comparator lc locale recent a b = some c) ∧
    (∀ y : Entry, ∃ c, comparator lc locale recent ⟨"<hr>", none⟩ y = some c) ∧
    (∃ out, getEncodingList lc locale recent catalog = some out) ∧
    getEncodingList lc locale recent [] = some [] ∧
    (∀ e : Entry, getEncodingList lc locale recent [e] = some [e]) := by
  refine ⟨?_, ?_, ?_, rfl, fun e => rfl⟩
  · intro a ha b _
    exact Option.isSome_iff_exists.mp (comparator_isSome lc locale recent a b (hwf a ha))
  · intro y
    exact Option.isSome_iff_exists.mp
      (comparator_isSome lc locale recent ⟨"<hr>", none⟩ y (fun _ => rfl))
  · exact Option.isSome_iff_exists.mp (getEncodingList_isSome lc locale recent catalog hwf)

/-! ## Instances of the ranking theorems -/

/-- The ranking of `sampleCatalog` with locale list `[GBK]` and recency list `[Big5]`. -/
theorem getEncodingList_sampleCatalog :
    getEncodingList ordinalCompare ["GBK"] ["Big5"] sampleCatalog = some
      [ ⟨"UTF-8", some "Unicode"⟩, ⟨"GBK", some "Chinese Simplified"⟩,
        ⟨"Big5", some "Chinese Traditional"⟩, ⟨"<hr>", none⟩,
        ⟨"UTF-16LE", some "Unicode"⟩, ⟨"Shift_JIS", some "Japanese"⟩,
        ⟨"Windows-1252", some "Western"⟩ ] := by
  decide

theorem getEncodingList_permutation_witness :
    ∃ out, getEncodingList ordinalCompare ["GBK", "x-user-defined"] ["Big5", "UTF-7"]
        sampleCatalog = some out ∧ out.Perm sampleCatalog ∧
      out.length = sampleCatalog.length := by
  have h := getEncodingList_permutation ordinalCompare ["GBK", "x-user-defined"]
    ["Big5", "UTF-7"] sampleCatalog
  obtain ⟨out, hout⟩ := Option.isSome_iff_exists.mp (h.1 wellFormed_sampleCatalog)
  exact ⟨out, hout, (h.2 out hout).1, (h.2 out hout).2.1⟩

theorem getEncodingList_utf8_first_witness :
    sampleCatalog.filter (fun e => decide (e.code = "UTF-8")) = [⟨"UTF-8", some "Unicode"⟩] ∧
    ((wellFormed sampleCatalog →
        (getEncodingList ordinalCompare ["GBK", "UTF-8"] ["Big5"] sampleCatalog).isSome) ∧
      ∀ out, getEncodingList ordinalCompare ["GBK", "UTF-8"] ["Big5"] sampleCatalog = some out →
        out.head? = some ⟨"UTF-8", some "Unicode"⟩) :=
  ⟨by decide,
    getEncodingList_utf8_first ordinalCompare ["GBK", "UTF-8"] ["Big5"] sampleCatalog
      ⟨"UTF-8", some "Unicode"⟩ (by decide)⟩

theorem getEncodingList_locale_order_witness :
    ((BASE_ENCODINGS id).map Entry.code).Nodup ∧
    ((wellFormed (BASE_ENCODINGS id) →
        (getEncodingList ordinalCompare ["GBK", "GB18030"] ["GBK", "Big5"]
          (BASE_ENCODINGS id)).isSome) ∧
      ∀ out, getEncodingList ordinalCompare ["GBK", "GB18030"] ["GBK", "Big5"]
          (BASE_ENCODINGS id) = some out →
        (∀ a ∈ BASE_ENCODINGS id, ∀ b ∈ BASE_ENCODINGS id, a.code ≠ "UTF-8" →
          b.code ≠ "UTF-8" → a.code ∈ ["GBK", "GB18030"] → b.code ∉ ["GBK", "GB18030"] →
          Precedes out a b) ∧
        (∀ a ∈ BASE_ENCODINGS id, ∀ b ∈ BASE_ENCODINGS id, a.code ≠ "UTF-8" →
          b.code ≠ "UTF-8" → a.code ∈ ["GBK", "GB18030"] → b.code ∈ ["GBK", "GB18030"] →
          indexOf ["GBK", "GB18030"] a.code < indexOf ["GBK", "GB18030"] b.code →
          Precedes out a b)) :=
  ⟨nodup_codes_BASE_ENCODINGS id,
    getEncodingList_locale_order ordinalCompare ["GBK", "GB18030"] ["GBK", "Big5"]
      (BASE_ENCODINGS id) (nodup_codes_BASE_ENCODINGS id)⟩

theorem getEncodingList_recency_order_witness :
    (sampleCatalog.map Entry.code).Nodup ∧
    (∀ out, getEncodingList ordinalCompare ["GBK"] ["Big5", "Shift_JIS"] sampleCatalog
        = some out →
      ∀ a ∈ sampleCatalog, ∀ b ∈ sampleCatalog, a.code ≠ "UTF-8" →
        a.code ∉ ["GBK"] → a.code ∈ ["Big5", "Shift_JIS"] → b.code ≠ "UTF-8" →
        b.code ∉ ["GBK"] → b.code ∈ ["Big5", "Shift_JIS"] →
        indexOf ["Big5", "Shift_JIS"] a.code < indexOf ["Big5", "Shift_JIS"] b.code →
        Precedes out a b) :=
  ⟨by decide, fun out h =>
    ((getEncodingList_recency_order ordinalCompare ["GBK"] ["Big5", "Shift_JIS"]
      sampleCatalog (by decide)).1.2 out h).2.2⟩

theorem getEncodingList_separator_position_witness :
    (sampleCatalog.map Entry.code).Nodup ∧
    (⟨"<hr>", none⟩ : Entry) ∈ sampleCatalog ∧
    "<hr>" ∉ ["GBK"] ∧ "<hr>" ∉ ["Big5"] ∧
    ∀ out, getEncodingList ordinalCompare ["GBK"] ["Big5"] sampleCatalog = some out →
      (∀ a ∈ sampleCatalog, a.code ∈ ["GBK"] ∨ a.code ∈ ["Big5"] →
        Precedes out a ⟨"<hr>", none⟩) ∧
      (∀ b ∈ sampleCatalog, b.code ≠ "UTF-8" → b.code ∉ ["GBK"] → b.code ∉ ["Big5"] →
        b.code ≠ "<hr>" → Precedes out ⟨"<hr>", none⟩ b) :=
  ⟨by decide, by decide, by decide, by decide,
    (getEncodingList_separator_position ordinalCompare ["GBK"] ["Big5"] sampleCatalog
      (by decide) ⟨"<hr>", none⟩ (by decide) rfl (by decide) (by decide)).2⟩

theorem getEncodingList_utf16le_position_witness :
    (sampleCatalog.map Entry.code).Nodup ∧
    (⟨"UTF-16LE", some "Unicode"⟩ : Entry) ∈ sampleCatalog ∧
    "UTF-16LE" ∉ ["GBK"] ∧ "UTF-16LE" ∉ ["Big5"] ∧
    ∀ out, getEncodingList ordinalCompare ["GBK"] ["Big5"] sampleCatalog = some out →
      (∀ a ∈ sampleCatalog, a.code = "<hr>" ∨ a.code = "UTF-8" ∨ a.code ∈ ["GBK"] ∨
        a.code ∈ ["Big5"] → Precedes out a ⟨"UTF-16LE", some "Unicode"⟩) ∧
      (∀ b ∈ sampleCatalog, isTail ["GBK"] ["Big5"] b →
        Precedes out ⟨"UTF-16LE", some "Unicode"⟩ b) :=
  ⟨by decide, by decide, by decide, by decide,
    (getEncodingList_utf16le_position ordinalCompare ["GBK"] ["Big5"] sampleCatalog
      (by decide) ⟨"UTF-16LE", some "Unicode"⟩ (by decide) rfl (by decide) (by decide)).2⟩

theorem getEncodingList_tail_sorted_by_name_witness :
    IsTotalPreorderCompare ordinalCompare ∧
    ((BASE_ENCODINGS id).map Entry.code).Nodup ∧
    ∀ out, getEncodingList ordinalCompare ["GBK"] ["Big5"] (BASE_ENCODINGS id) = some out →
      ∃ front tail, out = front ++ tail ∧
        (∀ e ∈ front, ¬ isTail ["GBK"] ["Big5"] e) ∧
        (∀ e ∈ tail, isTail ["GBK"] ["Big5"] e) ∧
        tail.Pairwise (fun a b => ordinalCompare (nameArg a) (nameArg b) ≤ 0) :=
  ⟨ordinalCompare_isTotalPreorderCompare, nodup_codes_BASE_ENCODINGS id,
    (getEncodingList_tail_sorted_by_name ordinalCompare ordinalCompare_isTotalPreorderCompare
      ["GBK"] ["Big5"] (BASE_ENCODINGS id) (nodup_codes_BASE_ENCODINGS id)).1.2⟩

theorem getEncodingList_never_fails_witness :
    wellFormed (BASE_ENCODINGS id) ∧
    ∃ out, getEncodingList ordinalCompare ["GBK"] ["Big5"] (BASE_ENCODINGS id) = some out :=
  ⟨wellFormed_BASE_ENCODINGS id,
    (getEncodingList_never_fails ordinalCompare ["GBK"] ["Big5"] (BASE_ENCODINGS id)
      (wellFormed_BASE_ENCODINGS id)).2.2.1⟩

/-! ## The recency list -/

/-- C9, as stated, fails: after the three calls with `GBK`, `Big5`, `EUC-JP` from the
empty store, the stored string is `"EUC-JP,Big5,GBK"`; the array written and the list
reloaded both have three elements. -/
theorem recency_list_exceeds_two :
    ["GBK", "Big5", "EUC-JP"].foldl recordRecentlySelectedEncoding none
      = some "EUC-JP,Big5,GBK" ∧
    recentToStore (["GBK", "Big5"].foldl recordRecentlySelectedEncoding none) "EUC-JP"
      = ["EUC-JP", "Big5", "GBK"] ∧
    initializeEncodingLists
      (["GBK", "Big5", "EUC-JP"].foldl recordRecentlySelectedEncoding none)
      = ["EUC-JP", "Big5", "GBK"] ∧
    ¬ (initializeEncodingLists
      (["GBK", "Big5", "EUC-JP"].foldl recordRecentlySelectedEncoding none)).length ≤ 2 := by
  decide

/-- C9, amended. The recency list holds at most 3 encoding codes: the array
`[encoding, ...recent]` written by `recordRecentlySelectedEncoding` has length at most 3
for every store and code, and starting from the empty store, after any sequence of calls
with comma-free codes, the list `initializeEncodingLists` reloads has length at most 3. -/
theorem recency_list_length_le_three (codes : List String)
    (hcodes : ∀ c ∈ codes, ',' ∉ c.data) :
    (∀ (stored : Option String) (e : String), (recentToStore stored e).length ≤ 3) ∧
    (initializeEncodingLists (codes.foldl recordRecentlySelectedEncoding none)).length
      ≤ 3 := by
  have hlen : ∀ (stored : Option String) (e : String),
      (recentToStore stored e).length ≤ 3 := by
    intro stored e
    simp only [recentToStore, List.length_cons, List.length_take]
    omega
  refine ⟨hlen, ?_⟩
  rcases List.eq_nil_or_concat codes with h | ⟨cs, c, h⟩
  · subst h
    decide
  · subst h
    rw [List.concat_eq_append, List.foldl_append, List.foldl_cons, List.foldl_nil,
      initialize_record _ c (hcodes c (by simp))]
    exact Nat.le_trans (List.length_filter_le _ _) (hlen _ _)

theorem recency_list_length_le_three_witness :
    (∀ c ∈ ["GBK", "Big5", "EUC-JP", "Big5", "Shift_JIS"], ',' ∉ c.data) ∧
    (initializeEncodingLists (["GBK", "Big5", "EUC-JP", "Big5", "Shift_JIS"].foldl
      recordRecentlySelectedEncoding none)).length ≤ 3 :=
  ⟨by decide,
    (recency_list_length_le_three ["GBK", "Big5", "EUC-JP", "Big5", "Shift_JIS"]
      (by decide)).2⟩

/-- C10. The recency list is most-recent-first and duplicate-free: for every
duplicate-free stored list `old` of non-empty comma-free codes and every such code `e`,
the store holding `old` joined by commas, after `recordRecentlySelectedEncoding(e)` the
stored list (the array written, which is also the list reloaded) has `e` as its first
element, contains `e` exactly once, is duplicate-free, and its other elements are codes
of `old` in their previous relative order. -/
theorem recordRecentlySelectedEncoding_most_recent_first (old : List String) (e : String)
    (hnd : old.Nodup) (hold : ∀ c ∈ old, c ≠ "" ∧ ',' ∉ c.data)
    (he : e ≠ "" ∧ ',' ∉ e.data) :
    initializeEncodingLists (some (joinComma old)) = old ∧
    initializeEncodingLists (recordRecentlySelectedEncoding (some (joinComma old)) e)
      = recentToStore (some (joinComma old)) e ∧
    (recentToStore (some (joinComma old)) e).head? = some e ∧
    (recentToStore (some (joinComma old)) e).count e = 1 ∧
    (recentToStore (some (joinComma old)) e).Nodup ∧
    (recentToStore (some (joinComma old)) e).tail.Sublist old := by
  have h0 := initializeEncodingLists_joinComma old hold
  have h1 := recentToStore_eq (some (joinComma old)) e
  rw [h0] at h1
  have hsub : ((old.filter (fun c => decide (c ≠ e))).take 2).Sublist old :=
    (List.take_sublist _ _).trans (List.filter_sublist _)
  have hnot : e ∉ (old.filter (fun c => decide (c ≠ e))).take 2 := by
    intro hmem
    have := List.of_mem_filter (List.mem_of_mem_take hmem)
    simp at this
  refine ⟨h0, ?_, ?_, ?_, ?_, ?_⟩
  · rw [initialize_record _ e he.2]
    apply List.filter_eq_self.mpr
    intro x hx
    rw [h1] at hx
    rcases List.mem_cons.mp hx with rfl | hx
    · simpa using he.1
    · simpa using (hold x (hsub.subset hx)).1
  · rw [h1]; rfl
  · rw [h1, List.count_cons_self, List.count_eq_zero_of_not_mem hnot]
  · rw [h1]
    exact List.nodup_cons.mpr ⟨hnot, hnd.sublist hsub⟩
  · rw [h1]
    exact hsub

theorem recordRecentlySelectedEncoding_most_recent_first_witness :
    ["EUC-JP", "Big5", "GBK"].Nodup ∧
    (∀ c ∈ ["EUC-JP", "Big5", "GBK"], c ≠ "" ∧ ',' ∉ c.data) ∧
    ("Big5" ≠ "" ∧ ',' ∉ "Big5".data) ∧
    recentToStore (some (joinComma ["EUC-JP", "Big5", "GBK"])) "Big5"
      = ["Big5", "EUC-JP", "GBK"] ∧
    (recentToStore (some (joinComma ["EUC-JP", "Big5", "GBK"])) "Big5").Nodup :=
  ⟨by decide, by decide, by decide, by decide,
    (recordRecentlySelectedEncoding_most_recent_first ["EUC-JP", "Big5", "GBK"] "Big5"
      (by decide) (by decide) (by decide)).2.2.2.2.1⟩

/-! ## Pattern matching on text samples -/

theorem test_eq_true_iff (r : Regex) (s : JsString) :
    test r s = true ↔ ∃ pre post, s = pre ++ post ∧ matchAt r post = true := by
  induction s with
  | nil =>
    simp only [test]
    constructor
    · intro h; exact ⟨[], [], rfl, h⟩
    · rintro ⟨pre, post, h, hm⟩
      have := List.append_eq_nil.mp h.symm
      rw [this.2] at hm
      exact hm
  | cons c cs ih =>
    simp only [test, Bool.or_eq_true, ih]
    constructor
    · rintro (h | ⟨pre, post, h, hm⟩)
      · exact ⟨[], c :: cs, rfl, h⟩
      · exact ⟨c :: pre, post, by rw [h]; rfl, hm⟩
    · rintro ⟨pre, post, h, hm⟩
      cases pre with
      | nil =>
        left
        rw [List.nil_append] at h
        rw [h]
        exact hm
      | cons p ps =>
        right
        rw [List.cons_append] at h
        exact ⟨ps, post, (List.cons.inj h).2, hm⟩

theorem matchAt_utf8AsLatin1Regex (post : JsString) :
    matchAt utf8AsLatin1Regex post = true ↔
      ∃ c rest, post = 0xC3 :: c :: rest ∧ 0xA1 ≤ c ∧ c ≤ 0xFF := by
  rcases post with _ | ⟨a, _ | ⟨c, rest⟩⟩ <;>
    simp [matchAt, utf8AsLatin1Regex, matchSeq, Atom.matchesUnit, ClassItem.contains,
      and_assoc]

theorem matchAt_win1252AsUtf8Regex (post : JsString) :
    matchAt win1252AsUtf8Regex post = true ↔
      ∃ c rest, post = 0xE2 :: 0x20AC :: c :: rest ∧
        c ∈ [0x2122, 0x153, 0xFFFD, 0xA2, 0x22, 0xA6] := by
  rcases post with _ | ⟨a, _ | ⟨b, _ | ⟨c, rest⟩⟩⟩ <;>
    simp [matchAt, win1252AsUtf8Regex, matchSeq, Atom.matchesUnit, ClassItem.contains,
      and_assoc]

theorem matchAt_cyrillicRegex (post : JsString) :
    matchAt cyrillicRegex post = true ↔
      (∃ c rest, post = 0xD0 :: c :: rest ∧ 0xC0 ≤ c ∧ c ≤ 0x178) ∨
      (∃ c d rest, post = 0xD1 :: c :: d :: rest ∧ (c = 0x20AC ∨ c = 0x2D) ∧
        d ≠ 0x0A ∧ d ≠ 0x0D ∧ d ≠ 0x2028 ∧ d ≠ 0x2029) := by
  rcases post with _ | ⟨a, _ | ⟨b, _ | ⟨c, rest⟩⟩⟩ <;>
    simp [matchAt, cyrillicRegex, matchSeq, Atom.matchesUnit, ClassItem.contains,
      isLineTerminator, and_assoc]


theorem test_utf8AsLatin1Regex (s : JsString) :
    test utf8AsLatin1Regex s = true ↔ HasUtf8AsLatin1Pattern s := by
  rw [test_eq_true_iff]
  constructor
  · rintro ⟨pre, post, h, hm⟩
    obtain ⟨c, rest, hp, h1, h2⟩ := (matchAt_utf8AsLatin1Regex post).mp hm
    exact ⟨pre, c, rest, by rw [h, hp], h1, h2⟩
  · rintro ⟨pre, c, rest, h, h1, h2⟩
    exact ⟨pre, _, h, (matchAt_utf8AsLatin1Regex _).mpr ⟨c, rest, rfl, h1, h2⟩⟩

theorem test_win1252AsUtf8Regex (s : JsString) :
    test win1252AsUtf8Regex s = true ↔ HasWin1252AsUtf8Pattern s := by
  rw [test_eq_true_iff]
  constructor
  · rintro ⟨pre, post, h, hm⟩
    obtain ⟨c, rest, hp, h1⟩ := (matchAt_win1252AsUtf8Regex post).mp hm
    exact ⟨pre, c, rest, by rw [h, hp], h1⟩
  · rintro ⟨pre, c, rest, h, h1⟩
    exact ⟨pre, _, h, (matchAt_win1252AsUtf8Regex _).mpr ⟨c, rest, rfl, h1⟩⟩

theorem test_cyrillicRegex (s : JsString) :
    test cyrillicRegex s = true ↔ HasCyrillicPattern s := by
  rw [test_eq_true_iff]
  constructor
  · rintro ⟨pre, post, h, hm⟩
    rcases (matchAt_cyrillicRegex post).mp hm with ⟨c, rest, hp, h1⟩ | ⟨c, d, rest, hp, h1⟩
    · exact Or.inl ⟨pre, c, rest, by rw [h, hp], h1⟩
    · exact Or.inr ⟨pre, c, d, rest, by rw [h, hp], h1⟩
  · rintro (⟨pre, c, rest, h, h1⟩ | ⟨pre, c, d, rest, h, h1⟩)
    · exact ⟨pre, _, h, (matchAt_cyrillicRegex _).mpr (Or.inl ⟨c, rest, rfl, h1⟩)⟩
    · exact ⟨pre, _, h, (matchAt_cyrillicRegex _).mpr (Or.inr ⟨c, d, rest, rfl, h1⟩)⟩

/-- A pattern whose alternatives all start with a literal code unit above U+007F
matches nowhere in an ASCII sample. -/
theorem test_ascii_eq_false (r : Regex)
    (hr : ∀ alt ∈ r, ∃ d rest, alt = Atom.chr d :: rest ∧ 0x7F < d) :
    ∀ s : JsString, (∀ c ∈ s, c ≤ 0x7F) → test r s = false := by
  have hm : ∀ post : JsString, (∀ c ∈ post, c ≤ 0x7F) → matchAt r post = false := by
    intro post hpost
    unfold matchAt
    rw [List.any_eq_false]
    intro alt halt
    obtain ⟨d, rest, rfl, hd⟩ := hr alt halt
    cases post with
    | nil => simp [matchSeq]
    | cons c cs =>
      have := hpost c (List.mem_cons_self _ _)
      have hne : c ≠ d := by omega
      simp [matchSeq, Atom.matchesUnit, hne]
  intro s
  induction s with
  | nil => intro h; simp only [test]; exact hm [] h
  | cons c cs ih =>
    intro h
    simp only [test, Bool.or_eq_false_iff]
    exact ⟨hm _ h, ih (fun x hx => h x (List.mem_cons_of_mem _ hx))⟩

theorem test_replacementCharRegex (s : JsString) :
    test replacementCharRegex s = true ↔ 0xFFFD ∈ s := by
  induction s with
  | nil => simp [test, matchAt, replacementCharRegex, matchSeq]
  | cons c cs ih =>
    have hm : matchAt replacementCharRegex (c :: cs) = (c == 0xFFFD) := by
      simp [matchAt, replacementCharRegex, matchSeq, Atom.matchesUnit]
    simp only [test, Bool.or_eq_true, ih, List.mem_cons, hm, beq_iff_eq]
    constructor
    · rintro (h | h)
      · exact Or.inl h.symm
      · exact Or.inr h
    · rintro (h | h)
      · exact Or.inl h.symm
      · exact Or.inr h

theorem matchesUnit_suspiciousAtom (c : Nat) :
    suspiciousAtom.matchesUnit c = !(isPermitted c) := by
  simp [suspiciousAtom, Atom.matchesUnit, ClassItem.contains, isPermitted, Bool.or_assoc]

theorem detectLikelyEncoding_eq_latin1 (s : JsString) (h : HasUtf8AsLatin1Pattern s) :
    detectLikelyEncoding s = "utf-8-as-latin1" := by
  simp [detectLikelyEncoding, (test_utf8AsLatin1Regex s).mpr h]

theorem detectLikelyEncoding_eq_win1252 (s : JsString) (hw : HasWin1252AsUtf8Pattern s)
    (hno : ¬ HasUtf8AsLatin1Pattern s) :
    detectLikelyEncoding s = "windows-1252-as-utf8" := by
  have h1 : test utf8AsLatin1Regex s = false := by
    rw [← Bool.not_eq_true]
    exact (test_utf8AsLatin1Regex s).not.mpr hno
  simp [detectLikelyEncoding, h1, (test_win1252AsUtf8Regex s).mpr hw]

theorem textSampleOf_some (s : JsString) (h : s.length ≤ 1000) :
    textSampleOf (some s) = s := by
  simp [textSampleOf, List.take_of_length_le h]

theorem length_textSampleOf (textContent : Option JsString) :
    (textSampleOf textContent).length ≤ 1000 := by
  cases textContent with
  | none => simp [textSampleOf]
  | some t => simp [textSampleOf, List.length_take]


/-! ## The mojibake heuristic -/

/-- C11. For every text sample `detectLikelyEncoding` returns one of the four labels,
chosen by priority: `'utf-8-as-latin1'` exactly when the UTF-8-as-Latin-1 pattern occurs
(whatever else occurs), `'windows-1252-as-utf8'` exactly when that pattern occurs and the
first does not, `'cyrillic-wrong-encoding'` exactly when the Cyrillic pattern occurs and
neither of the first two does, `'unknown'` exactly when none of the three occurs. -/
theorem detectLikelyEncoding_priority (s : JsString) :
    detectLikelyEncoding s ∈
      ["utf-8-as-latin1", "windows-1252-as-utf8", "cyrillic-wrong-encoding", "unknown"] ∧
    (detectLikelyEncoding s = "utf-8-as-latin1" ↔ HasUtf8AsLatin1Pattern s) ∧
    (detectLikelyEncoding s = "windows-1252-as-utf8" ↔
      HasWin1252AsUtf8Pattern s ∧ ¬ HasUtf8AsLatin1Pattern s) ∧
    (detectLikelyEncoding s = "cyrillic-wrong-encoding" ↔
      HasCyrillicPattern s ∧ ¬ HasUtf8AsLatin1Pattern s ∧ ¬ HasWin1252AsUtf8Pattern s) ∧
    (detectLikelyEncoding s = "unknown" ↔
      ¬ HasUtf8AsLatin1Pattern s ∧ ¬ HasWin1252AsUtf8Pattern s ∧ ¬ HasCyrillicPattern s) := by
  rw [← test_utf8AsLatin1Regex, ← test_win1252AsUtf8Regex, ← test_cyrillicRegex]
  unfold detectLikelyEncoding
  cases test utf8AsLatin1Regex s <;> cases test win1252AsUtf8Regex s <;>
    cases test cyrillicRegex s <;> simp

/-- C12. For every text sample that contains U+00C3 followed by one of U+00A1, U+00A9,
U+00AD, U+00B3, U+00BA, U+00B1, U+00BC, U+00BF, U+00B4, U+00A2, U+00A7,
`analyzeTextContent` reports `hasLatin1Issues = true` and
`likelyOriginalEncoding = 'utf-8-as-latin1'`; so it does for the sample U+00C3 U+00A9
U+00C3 U+00A1 U+00C3 U+00B3. -/
theorem analyzeTextContent_latin1 (textContent : Option JsString)
    (pre post : JsString) (c : Nat)
    (h : textSampleOf textContent = pre ++ 0xC3 :: c :: post)
    (hc : c ∈ [0xA1, 0xA9, 0xAD, 0xB3, 0xBA, 0xB1, 0xBC, 0xBF, 0xB4, 0xA2, 0xA7]) :
    ((analyzeTextContent textContent).hasLatin1Issues = true ∧
      (analyzeTextContent textContent).likelyOriginalEncoding = "utf-8-as-latin1") ∧
    ((analyzeTextContent (some [0xC3, 0xA9, 0xC3, 0xA1, 0xC3, 0xB3])).hasLatin1Issues = true ∧
      (analyzeTextContent (some [0xC3, 0xA9, 0xC3, 0xA1, 0xC3, 0xB3])).likelyOriginalEncoding
        = "utf-8-as-latin1") := by
  refine ⟨⟨?_, ?_⟩, by decide⟩
  · show test latin1IssuesRegex (textSampleOf textContent) = true
    rw [test_eq_true_iff]
    refine ⟨pre, _, h, ?_⟩
    simp only [List.mem_cons, List.mem_singleton, List.not_mem_nil, or_false] at hc
    rcases hc with rfl | rfl | rfl | rfl | rfl | rfl | rfl | rfl | rfl | rfl | rfl <;>
      simp [matchAt, latin1IssuesRegex, matchSeq, Atom.matchesUnit]
  · show detectLikelyEncoding (textSampleOf textContent) = "utf-8-as-latin1"
    apply detectLikelyEncoding_eq_latin1
    refine ⟨pre, c, post, h, ?_⟩
    simp only [List.mem_cons, List.mem_singleton, List.not_mem_nil, or_false] at hc
    omega

/-- C13. For every text sample that contains U+00E2 U+20AC followed by one of U+2122,
U+0153, U+FFFD, U+00A2, U+0022, U+00A6, and that contains no U+00C3 followed by a code
unit in U+00A1..U+00FF, `analyzeTextContent` reports `hasWin1252Issues = true` and
`likelyOriginalEncoding = 'windows-1252-as-utf8'`; so it does for the sample
U+00E2 U+20AC U+2122 followed by `hello`. -/
theorem analyzeTextContent_win1252 (textContent : Option JsString)
    (pre post : JsString) (c : Nat)
    (h : textSampleOf textContent = pre ++ 0xE2 :: 0x20AC :: c :: post)
    (hc : c ∈ [0x2122, 0x153, 0xFFFD, 0xA2, 0x22, 0xA6])
    (hno : ¬ HasUtf8AsLatin1Pattern (textSampleOf textContent)) :
    ((analyzeTextContent textContent).hasWin1252Issues = true ∧
      (analyzeTextContent textContent).likelyOriginalEncoding = "windows-1252-as-utf8") ∧
    ((analyzeTextContent (some (utf16 "â€™hello"))).hasWin1252Issues = true ∧
      (analyzeTextContent (some (utf16 "â€™hello"))).likelyOriginalEncoding
        = "windows-1252-as-utf8") := by
  refine ⟨⟨?_, ?_⟩, by decide⟩
  · show test win1252IssuesRegex (textSampleOf textContent) = true
    rw [test_eq_true_iff]
    refine ⟨pre, _, h, ?_⟩
    simp only [List.mem_cons, List.mem_singleton, List.not_mem_nil, or_false] at hc
    rcases hc with rfl | rfl | rfl | rfl | rfl | rfl <;>
      simp [matchAt, win1252IssuesRegex, matchSeq, Atom.matchesUnit]
  · show detectLikelyEncoding (textSampleOf textContent) = "windows-1252-as-utf8"
    exact detectLikelyEncoding_eq_win1252 _ ⟨pre, c, post, h, hc⟩ hno

/-- C14. For every text sample that consists only of ASCII code units, the empty
sample included, `analyzeTextContent` reports no replacement characters, no Latin-1
issue, no Windows-1252 issue, a suspicious-character count of 0 and
`likelyOriginalEncoding = 'unknown'`. -/
theorem analyzeTextContent_ascii (textContent : Option JsString)
    (h : ∀ c ∈ textSampleOf textContent, c ≤ 0x7F) :
    analyzeTextContent textContent =
      { hasReplacementChars := false, hasLatin1Issues := false, hasWin1252Issues := false,
        suspiciousChars := 0, likelyOriginalEncoding := "unknown" } ∧
    analyzeTextContent (some (utf16 "")) =
      { hasReplacementChars := false, hasLatin1Issues := false, hasWin1252Issues := false,
        suspiciousChars := 0, likelyOriginalEncoding := "unknown" } := by
  refine ⟨?_, by decide⟩
  have h1 : test replacementCharRegex (textSampleOf textContent) = false :=
    test_ascii_eq_false _ (by simp [replacementCharRegex]) _ h
  have h2 : test latin1IssuesRegex (textSampleOf textContent) = false :=
    test_ascii_eq_false _ (by simp [latin1IssuesRegex]) _ h
  have h3 : test win1252IssuesRegex (textSampleOf textContent) = false :=
    test_ascii_eq_false _ (by simp [win1252IssuesRegex]) _ h
  have h4 : test utf8AsLatin1Regex (textSampleOf textContent) = false :=
    test_ascii_eq_false _ (by simp [utf8AsLatin1Regex]) _ h
  have h5 : test win1252AsUtf8Regex (textSampleOf textContent) = false :=
    test_ascii_eq_false _ (by simp [win1252AsUtf8Regex]) _ h
  have h6 : test cyrillicRegex (textSampleOf textContent) = false :=
    test_ascii_eq_false _ (by simp [cyrillicRegex]) _ h
  have h7 : (textSampleOf textContent).filter suspiciousAtom.matchesUnit = [] := by
    rw [List.filter_eq_nil_iff]
    intro c hc
    have := h c hc
    simp [matchesUnit_suspiciousAtom, isPermitted, this]
  simp [analyzeTextContent, detectLikelyEncoding, matchAll, h1, h2, h3, h4, h5, h6, h7]

/-- C15. For every text sample, the suspicious-character count reported by
`analyzeTextContent` is the number of code units of the sample outside the permitted
ranges U+0000..U+007F, U+00A0..U+024F and U+1E00..U+1EFF; it is 0 when there is none
and never exceeds the length of the sample. -/
theorem analyzeTextContent_suspiciousChars (textContent : Option JsString) :
    (analyzeTextContent textContent).suspiciousChars =
      (textSampleOf textContent).countP (fun c => !(isPermitted c)) ∧
    ((∀ c ∈ textSampleOf textContent, isPermitted c = true) →
      (analyzeTextContent textContent).suspiciousChars = 0) ∧
    (analyzeTextContent textContent).suspiciousChars ≤ (textSampleOf textContent).length := by
  have hfun : suspiciousAtom.matchesUnit = fun c => !(isPermitted c) :=
    funext matchesUnit_suspiciousAtom
  have key : (analyzeTextContent textContent).suspiciousChars =
      (textSampleOf textContent).countP (fun c => !(isPermitted c)) := by
    show (match matchAll suspiciousAtom (textSampleOf textContent) with
      | none => 0
      | some ms => ms.length) = _
    unfold matchAll
    rw [hfun, List.countP_eq_length_filter]
    cases hf : (textSampleOf textContent).filter (fun c => !(isPermitted c)) with
    | nil => simp
    | cons x xs => simp
  refine ⟨key, ?_, ?_⟩
  · intro hall
    rw [key, List.countP_eq_zero]
    intro c hc
    simp [hall c hc]
  · rw [key]
    exact List.countP_le_length _

/-- C16. For every text sample, `analyzeTextContent` reports
`hasReplacementChars = true` if and only if the sample, the first 1000 code units of the
page text, contains U+FFFD. -/
theorem analyzeTextContent_hasReplacementChars (textContent : Option JsString) :
    ((analyzeTextContent textContent).hasReplacementChars = true ↔
      0xFFFD ∈ textSampleOf textContent) ∧
    (∀ t : JsString, textSampleOf (some t) = t.take 1000) ∧
    textSampleOf none = [] :=
  ⟨test_replacementCharRegex _, fun _ => rfl, rfl⟩

theorem replacementCharCount_eq_count (text : JsString) :
    replacementCharCount text = text.count 0xFFFD := by
  unfold replacementCharCount matchAll
  have hfun : (Atom.chr 0xFFFD).matchesUnit = fun c => c == 0xFFFD := by
    funext c; simp [Atom.matchesUnit]
  rw [hfun, List.count, List.countP_eq_length_filter]
  cases hf : text.filter (fun c => c == 0xFFFD) with
  | nil => simp
  | cons x xs => simp

/-- C17. For all counts `old` and `new` of replacement characters, the decision of
`attemptContentReprocessing` that the new decoding is better is true exactly when
`new < old` or (`old > 0` and `new = 0`); the counts are the numbers of occurrences of
U+FFFD in the two texts; `isImprovement 5 0`, `isImprovement 5 2` hold and
`isImprovement 0 3`, `isImprovement 5 5` do not. -/
theorem isImprovement_iff (old new : Nat) :
    (isImprovement old new = true ↔ new < old ∨ (0 < old ∧ new = 0)) ∧
    (∀ originalText redecodedText : JsString,
      newEncodingSeemsBetter originalText redecodedText =
        isImprovement (originalText.count 0xFFFD) (redecodedText.count 0xFFFD)) ∧
    isImprovement 5 0 = true ∧ isImprovement 0 3 = false ∧
    isImprovement 5 5 = false ∧ isImprovement 5 2 = true := by
  refine ⟨?_, ?_, by decide, by decide, by decide, by decide⟩
  · simp [isImprovement]
  · intro o r
    simp [newEncodingSeemsBetter, replacementCharCount_eq_count]

/-- C19. For all counts `old` and `new`, the improvement condition of
`attemptContentReprocessing` is equivalent to `new < old` alone: the second disjunct
never changes the result, and the condition is false whenever `old = 0`. -/
theorem isImprovement_eq_strictlyFewer (old new : Nat) :
    isImprovement old new = strictlyFewer old new ∧
    ((decide (old > 0) && decide (new = 0)) = true → strictlyFewer old new = true) ∧
    isImprovement 0 new = false := by
  refine ⟨?_, ?_, ?_⟩
  · unfold isImprovement strictlyFewer
    rw [Bool.eq_iff_iff]
    simp only [Bool.or_eq_true, Bool.and_eq_true, decide_eq_true_eq]
    omega
  · unfold strictlyFewer
    simp only [Bool.and_eq_true, decide_eq_true_eq]
    omega
  · simp [isImprovement]


/-! ## Escaping -/

theorem utf16_amp : utf16 "&amp;" = [0x26, 0x61, 0x6D, 0x70, 0x3B] := by decide

theorem utf16_lt : utf16 "&lt;" = [0x26, 0x6C, 0x74, 0x3B] := by decide

theorem utf16_gt : utf16 "&gt;" = [0x26, 0x67, 0x74, 0x3B] := by decide

theorem utf16_quot : utf16 "&quot;" = [0x26, 0x71, 0x75, 0x6F, 0x74, 0x3B] := by decide

theorem utf16_apos : utf16 "&#39;" = [0x26, 0x23, 0x33, 0x39, 0x3B] := by decide

theorem replaceAll_append (c : Nat) (rep a b : JsString) :
    replaceAll c rep (a ++ b) = replaceAll c rep a ++ replaceAll c rep b := by
  induction a with
  | nil => rfl
  | cons x xs ih => simp [replaceAll, ih]

/-- The five replacements of `escapeHtml` together escape every code unit once. -/
theorem escapeHtml_eq_escapeEach (text : JsString) : escapeHtml text = escapeEach text := by
  induction text with
  | nil => rfl
  | cons x xs ih =>
    have hcons : escapeHtml (x :: xs) = escapeHtml [x] ++ escapeHtml xs := by
      unfold escapeHtml
      rw [show x :: xs = [x] ++ xs from rfl]
      simp only [replaceAll_append]
    rw [hcons, ih]
    show escapeHtml [x] ++ escapeEach xs = escapeUnit x ++ escapeEach xs
    congr 1
    unfold escapeHtml escapeUnit
    simp only [utf16_amp, utf16_lt, utf16_gt, utf16_quot, utf16_apos]
    by_cases h1 : x = 0x26
    · subst h1; decide
    by_cases h2 : x = 0x3C
    · subst h2; decide
    by_cases h3 : x = 0x3E
    · subst h3; decide
    by_cases h4 : x = 0x22
    · subst h4; decide
    by_cases h5 : x = 0x27
    · subst h5; decide
    simp [replaceAll, h1, h2, h3, h4, h5]

theorem escapeUnit_no_markup (x c : Nat) (hc : c ∈ escapeUnit x) :
    c ≠ 0x3C ∧ c ≠ 0x3E ∧ c ≠ 0x22 ∧ c ≠ 0x27 := by
  unfold escapeUnit at hc
  simp only [utf16_amp, utf16_lt, utf16_gt, utf16_quot, utf16_apos] at hc
  split_ifs at hc <;>
    simp only [List.mem_cons, List.mem_singleton, List.not_mem_nil, or_false] at hc <;>
    omega

theorem escapeEach_no_markup (text : JsString) :
    ∀ c ∈ escapeEach text, c ≠ 0x3C ∧ c ≠ 0x3E ∧ c ≠ 0x22 ∧ c ≠ 0x27 := by
  induction text with
  | nil => simp [escapeEach]
  | cons x xs ih =>
    intro c hc
    rcases List.mem_append.mp hc with h | h
    · exact escapeUnit_no_markup x c h
    · exact ih c h

theorem escapeEach_ampersand (text : JsString) :
    ∀ t : JsString, t <:+ escapeEach text → t.head? = some 0x26 →
      ∃ ent ∈ htmlEntities, ent <+: t := by
  induction text with
  | nil =>
    intro t ht hh
    have : t = [] := List.suffix_nil.mp ht
    subst this
    simp at hh
  | cons x xs ih =>
    intro t ht hh
    have hent : ∀ ent ∈ htmlEntities,
        ∀ t : JsString, t <:+ ent ++ escapeEach xs → t.head? = some 0x26 →
        ∃ e ∈ htmlEntities, e <+: t := by
      intro ent hmem t ht hh
      simp only [htmlEntities, utf16_amp, utf16_lt, utf16_gt, utf16_quot, utf16_apos,
        List.mem_cons, List.mem_singleton, List.not_mem_nil, or_false] at hmem
      rcases hmem with rfl | rfl | rfl | rfl | rfl
      · simp only [List.cons_append, List.nil_append, List.suffix_cons_iff] at ht
        rcases ht with rfl | rfl | rfl | rfl | rfl | ht
        · exact ⟨utf16 "&amp;", by simp [htmlEntities], by rw [utf16_amp]; exact ⟨_, rfl⟩⟩
        · simp at hh
        · simp at hh
        · simp at hh
        · simp at hh
        · exact ih t ht hh
      · simp only [List.cons_append, List.nil_append, List.suffix_cons_iff] at ht
        rcases ht with rfl | rfl | rfl | rfl | ht
        · exact ⟨utf16 "&lt;", by simp [htmlEntities], by rw [utf16_lt]; exact ⟨_, rfl⟩⟩
        · simp at hh
        · simp at hh
        · simp at hh
        · exact ih t ht hh
      · simp only [List.cons_append, List.nil_append, List.suffix_cons_iff] at ht
        rcases ht with rfl | rfl | rfl | rfl | ht
        · exact ⟨utf16 "&gt;", by simp [htmlEntities], by rw [utf16_gt]; exact ⟨_, rfl⟩⟩
        · simp at hh
        · simp at hh
        · simp at hh
        · exact ih t ht hh
      · simp only [List.cons_append, List.nil_append, List.suffix_cons_iff] at ht
        rcases ht with rfl | rfl | rfl | rfl | rfl | rfl | ht
        · exact ⟨utf16 "&quot;", by simp [htmlEntities], by rw [utf16_quot]; exact ⟨_, rfl⟩⟩
        · simp at hh
        · simp at hh
        · simp at hh
        · simp at hh
        · simp at hh
        · exact ih t ht hh
      · simp only [List.cons_append, List.nil_append, List.suffix_cons_iff] at ht
        rcases ht with rfl | rfl | rfl | rfl | rfl | ht
        · exact ⟨utf16 "&#39;", by simp [htmlEntities], by rw [utf16_apos]; exact ⟨_, rfl⟩⟩
        · simp at hh
        · simp at hh
        · simp at hh
        · simp at hh
        · exact ih t ht hh
    have hE : escapeEach (x :: xs) = escapeUnit x ++ escapeEach xs := rfl
    rw [hE] at ht
    unfold escapeUnit at ht
    split_ifs at ht with h1 h2 h3 h4 h5
    · exact hent _ (by simp [htmlEntities]) t ht hh
    · exact hent _ (by simp [htmlEntities]) t ht hh
    · exact hent _ (by simp [htmlEntities]) t ht hh
    · exact hent _ (by simp [htmlEntities]) t ht hh
    · exact hent _ (by simp [htmlEntities]) t ht hh
    · simp only [List.cons_append, List.nil_append, List.suffix_cons_iff] at ht
      rcases ht with rfl | ht
      · simp only [List.head?_cons, Option.some.injEq] at hh
        exact absurd hh h1
      · exact ih t ht hh

/-- C20. For every input string, the output of `escapeHtml` of background.js contains
none of `<`, `>`, `"`, `'`, and every `&` in it starts one of the five entities `&amp;`,
`&lt;`, `&gt;`, `&quot;`, `&#39;`; each code unit of the input is escaped exactly once;
`createDecodedContentHTML` places exactly this output between `<body>` and `</body>`. -/
theorem escapeHtml_no_markup (text : JsString) :
    (∀ c ∈ escapeHtml text, c ≠ 0x3C ∧ c ≠ 0x3E ∧ c ≠ 0x22 ∧ c ≠ 0x27) ∧
    (∀ pre post : JsString, escapeHtml text = pre ++ 0x26 :: post →
      ∃ ent ∈ htmlEntities, ent <+: 0x26 :: post) ∧
    escapeHtml text = escapeEach text ∧
    (∀ encoding originalUrl originalEncoding : JsString,
      createDecodedContentHTML text encoding originalUrl originalEncoding =
        decodedContentHead ++ escapeHtml text ++ decodedContentTail) := by
  refine ⟨?_, ?_, escapeHtml_eq_escapeEach text, fun _ _ _ => rfl⟩
  · rw [escapeHtml_eq_escapeEach]
    exact escapeEach_no_markup text
  · intro pre post h
    rw [escapeHtml_eq_escapeEach] at h
    exact escapeEach_ampersand text (0x26 :: post) ⟨pre, h.symm⟩ rfl

/-! ## The comparator as a strict weak order -/

section StableSort

variable {α : Type}

/-- An insertion keeps the list ordered by `R` when the comparisons of the inserted
element with the elements of the list agree with `R`. -/
theorem insertSorted_pairwise_of_mem (cmp : α → α → Option Int) (R : α → α → Prop)
    (htrans : ∀ x y z, R x y → R y z → R x z) (x : α) :
    ∀ (l r : List α),
      (∀ y ∈ l, ∀ c, cmp x y = some c → c < 0 → R x y) →
      (∀ y ∈ l, ∀ c, cmp x y = some c → ¬ c < 0 → R y x) →
      l.Pairwise R → insertSorted cmp x l = some r → r.Pairwise R := by
  intro l
  induction l with
  | nil =>
    intro r _ _ _ h
    simp [insertSorted] at h
    subst h
    simp
  | cons y ys ih =>
    intro r hneg hpos hl h
    unfold insertSorted at h
    cases hc : cmp x y with
    | none => simp [hc] at h
    | some c =>
      simp only [hc] at h
      have hy := List.pairwise_cons.mp hl
      by_cases hlt : c < 0
      · simp [hlt] at h
        subst h
        refine List.pairwise_cons.mpr ⟨?_, hl⟩
        intro z hz
        have hxy := hneg y (List.mem_cons_self _ _) c hc hlt
        rcases List.mem_cons.mp hz with hz | hz
        · subst hz; exact hxy
        · exact htrans _ _ _ hxy (hy.1 z hz)
      · simp only [hlt, if_false] at h
        cases hr : insertSorted cmp x ys with
        | none => simp [hr] at h
        | some r' =>
          simp [hr] at h
          subst h
          have ih' := ih r' (fun z hz => hneg z (List.mem_cons_of_mem _ hz))
            (fun z hz => hpos z (List.mem_cons_of_mem _ hz)) hy.2 hr
          refine List.pairwise_cons.mpr ⟨?_, ih'⟩
          intro z hz
          rcases List.mem_cons.mp ((insertSorted_perm cmp x ys r' hr).subset hz) with hz | hz
          · subst hz; exact hpos y (List.mem_cons_self _ _) c hc hlt
          · exact hy.1 z hz

/-- The sort orders the list by `R` when the comparison of an element with an element
that comes before it in the input (relation `B`) agrees with `R`. -/
theorem sortLoop_pairwise_of_before (cmp : α → α → Option Int) (R B : α → α → Prop)
    (hneg : ∀ x y c, B y x → cmp x y = some c → c < 0 → R x y)
    (hpos : ∀ x y c, B y x → cmp x y = some c → ¬ c < 0 → R y x)
    (htrans : ∀ x y z, R x y → R y z → R x z) :
    ∀ (l acc out : List α), acc.Pairwise R → l.Pairwise B →
      (∀ y ∈ acc, ∀ x ∈ l, B y x) → sortLoop cmp acc l = some out → out.Pairwise R := by
  intro l
  induction l with
  | nil =>
    intro acc out hacc _ _ h
    simp [sortLoop] at h
    subst h
    exact hacc
  | cons x xs ih =>
    intro acc out hacc hl hB h
    unfold sortLoop at h
    cases hi : insertSorted cmp x acc with
    | none => simp [hi] at h
    | some acc' =>
      simp only [hi] at h
      have hx := List.pairwise_cons.mp hl
      have hacc' := insertSorted_pairwise_of_mem cmp R htrans x acc acc'
        (fun y hy c => hneg x y c (hB y hy x (List.mem_cons_self _ _)))
        (fun y hy c => hpos x y c (hB y hy x (List.mem_cons_self _ _))) hacc hi
      refine ih acc' out hacc' hx.2 ?_ h
      intro y hy z hz
      rcases List.mem_cons.mp ((insertSorted_perm cmp x acc acc' hi).subset hy) with hy | hy
      · subst hy; exact hx.1 z hz
      · exact hB y hy z (List.mem_cons_of_mem _ hz)

end StableSort

theorem code_eq_of_rank_eq (locale recent : List String) (a b : Entry)
    (h : rank locale recent a = rank locale recent b)
    (hlt : rank locale recent a < tailRank locale recent) : a.code = b.code := by
  by_cases haU : a.code = "UTF-8"
  · rw [(rank_eq_zero_iff locale recent a).mpr haU] at h
    rw [haU, (rank_eq_zero_iff locale recent b).mp h.symm]
  have hbU : b.code ≠ "UTF-8" := by
    intro hb
    rw [(rank_eq_zero_iff locale recent b).mpr hb] at h
    exact haU ((rank_eq_zero_iff locale recent a).mp h)
  by_cases haL : a.code ∈ locale
  · have h1 := rank_lt_of_mem_locale locale recent a haL
    by_cases hbL : b.code ∈ locale
    · rw [rank_locale locale recent a haU haL, rank_locale locale recent b hbU hbL] at h
      exact (List.indexOf_inj haL hbL).mp (by omega)
    · have := rank_ge_of_not_mem_locale locale recent b hbU hbL
      omega
  by_cases hbL : b.code ∈ locale
  · have := rank_lt_of_mem_locale locale recent b hbL
    have := rank_ge_of_not_mem_locale locale recent a haU haL
    omega
  by_cases haR : a.code ∈ recent
  · have h1 := rank_lt_of_mem_recent locale recent a haR
    by_cases hbR : b.code ∈ recent
    · rw [rank_recent locale recent a haU haL haR,
        rank_recent locale recent b hbU hbL hbR] at h
      exact (List.indexOf_inj haR hbR).mp (by omega)
    · have := rank_ge_of_not_mem locale recent b hbU hbL hbR
      omega
  by_cases hbR : b.code ∈ recent
  · have := rank_lt_of_mem_recent locale recent b hbR
    have := rank_ge_of_not_mem locale recent a haU haL haR
    omega
  unfold tailRank at hlt
  simp only [rank, if_neg haU, if_neg haL, if_neg haR, if_neg hbU, if_neg hbL,
    if_neg hbR] at h hlt
  by_cases haH : a.code = "<hr>"
  · by_cases hbH : b.code = "<hr>"
    · rw [haH, hbH]
    · simp only [if_pos haH, if_neg hbH] at h
      split_ifs at h <;> omega
  by_cases hbH : b.code = "<hr>"
  · simp only [if_neg haH, if_pos hbH] at h
    split_ifs at h <;> omega
  by_cases haW : a.code = "UTF-16LE"
  · by_cases hbW : b.code = "UTF-16LE"
    · rw [haW, hbW]
    · simp only [if_neg haH, if_neg hbH, if_pos haW, if_neg hbW] at h
      omega
  · simp only [if_neg haH, if_neg haW] at hlt
    omega

/-- The result of the comparator on two entries of different codes: the sign follows the
ranks, and two tail entries are compared by display name. -/
theorem comparator_sign (lc : String → String → Int) (locale recent : List String)
    (a b : Entry) (x : Int) (hne : a.code ≠ b.code)
    (h : comparator lc locale recent a b = some x) :
    (rank locale recent a < rank locale recent b ∧ x < 0) ∨
    (rank locale recent b < rank locale recent a ∧ 0 < x) ∨
    (rank locale recent a = tailRank locale recent ∧
      rank locale recent b = tailRank locale recent ∧
      x = lc (nameArg a) (nameArg b)) := by
  rcases comparator_cases lc locale recent a b with
    ⟨hr, c, hc, hneg⟩ | ⟨hr, c, hc, hpos⟩ | ⟨hr, hlt, _⟩ | ⟨ha, hb, _⟩
  · rw [h] at hc
    cases hc
    exact Or.inl ⟨hr, hneg⟩
  · rw [h] at hc
    cases hc
    exact Or.inr (Or.inl ⟨hr, hpos⟩)
  · exact absurd (code_eq_of_rank_eq locale recent a b hr hlt) hne
  · exact Or.inr (Or.inr ⟨ha, hb, comparator_tail lc locale recent a b x h ha hb⟩)

theorem stableBefore_asymm (lc : String → String → Int) (hlc : IsTotalPreorderCompare lc)
    (locale recent : List String) (catalog : List Entry) (a b : Entry)
    (hab : stableBefore lc locale recent catalog a b)
    (hba : stableBefore lc locale recent catalog b a) : False := by
  have h1 := hlc.1 (nameArg a) (nameArg b)
  have h2 := hlc.1 (nameArg b) (nameArg a)
  rcases hab with hab | ⟨ha, hb, hab⟩ <;> rcases hba with hba | ⟨_, _, hba⟩
  · omega
  · omega
  · omega
  · rcases hab with hab | ⟨hab, hi⟩ <;> rcases hba with hba | ⟨hba, hj⟩
    · have := h1.mp hab; omega
    · have := h1.mp hab; omega
    · have := h2.mp hba; omega
    · omega

theorem stableBefore_trans (lc : String → String → Int) (hlc : IsTotalPreorderCompare lc)
    (locale recent : List String) (catalog : List Entry) (a b c : Entry)
    (hab : stableBefore lc locale recent catalog a b)
    (hbc : stableBefore lc locale recent catalog b c) :
    stableBefore lc locale recent catalog a c := by
  rcases hab with hab | ⟨ha, hb, hab⟩ <;> rcases hbc with hbc | ⟨hb', hc, hbc⟩
  · exact Or.inl (by omega)
  · exact Or.inl (by omega)
  · have := rank_le_tailRank locale recent c
    omega
  · refine Or.inr ⟨ha, hc, ?_⟩
    have hab' : lc (nameArg a) (nameArg b) ≤ 0 := by rcases hab with h | ⟨h, _⟩ <;> omega
    have hbc' : lc (nameArg b) (nameArg c) ≤ 0 := by rcases hbc with h | ⟨h, _⟩ <;> omega
    have hac := hlc.2 _ _ _ hab' hbc'
    rcases lt_or_eq_of_le hac with hlt | heq
    · exact Or.inl hlt
    · right
      refine ⟨heq, ?_⟩
      -- `a` and `c` have equal names, so neither step can be strict
      have hca : lc (nameArg c) (nameArg a) ≤ 0 := by
        have := (hlc.1 (nameArg c) (nameArg a)).not
        have := (hlc.1 (nameArg a) (nameArg c)).not
        omega
      have hba : lc (nameArg b) (nameArg a) ≤ 0 := hlc.2 _ _ _ hbc' hca
      have hcb : lc (nameArg c) (nameArg b) ≤ 0 := hlc.2 _ _ _ hca hab'
      have e1 : ¬ lc (nameArg a) (nameArg b) < 0 := by
        intro h
        have := (hlc.1 (nameArg a) (nameArg b)).mp h
        omega
      have e2 : ¬ lc (nameArg b) (nameArg c) < 0 := by
        intro h
        have := (hlc.1 (nameArg b) (nameArg c)).mp h
        omega
      rcases hab with h | ⟨_, hi⟩
      · exact absurd h e1
      rcases hbc with h | ⟨_, hj⟩
      · exact absurd h e2
      omega

theorem pairwise_code_ne_indexOf_lt (catalog : List Entry)
    (hd : (catalog.map Entry.code).Nodup) :
    catalog.Pairwise (fun y x => y.code ≠ x.code ∧ catalog.indexOf y < catalog.indexOf x) := by
  have hnd : catalog.Nodup := List.Nodup.of_map _ hd
  rw [List.pairwise_iff_getElem]
  intro i j hi hj hij
  refine ⟨?_, ?_⟩
  · intro hcode
    have := List.inj_on_of_nodup_map hd (List.getElem_mem hi) (List.getElem_mem hj) hcode
    have := (List.Nodup.getElem_inj_iff hnd).mp this
    omega
  · rw [List.indexOf_getElem hnd i hi, List.indexOf_getElem hnd j hj]
    exact hij

/-- On a catalog of pairwise distinct codes the output of `getEncodingList` follows
`stableBefore`: it is sorted and stable. -/
theorem getEncodingList_stableBefore (lc : String → String → Int)
    (hlc : IsTotalPreorderCompare lc) (locale recent : List String)
    (catalog out : List Entry) (hd : (catalog.map Entry.code).Nodup)
    (h : getEncodingList lc locale recent catalog = some out) :
    out.Pairwise (stableBefore lc locale recent catalog) := by
  refine sortLoop_pairwise_of_before (comparator lc locale recent)
    (stableBefore lc locale recent catalog)
    (fun y x => y.code ≠ x.code ∧ catalog.indexOf y < catalog.indexOf x)
    ?_ ?_ (stableBefore_trans lc hlc locale recent catalog) catalog [] out
    List.Pairwise.nil (pairwise_code_ne_indexOf_lt catalog hd) (by simp) h
  · intro x y c hB hc hneg
    rcases comparator_sign lc locale recent x y c (Ne.symm hB.1) hc with
      ⟨hr, _⟩ | ⟨_, hpos⟩ | ⟨hx, hy, he⟩
    · exact Or.inl hr
    · omega
    · exact Or.inr ⟨hx, hy, Or.inl (by omega)⟩
  · intro x y c hB hc hpos
    rcases comparator_sign lc locale recent x y c (Ne.symm hB.1) hc with
      ⟨_, hneg⟩ | ⟨hr, _⟩ | ⟨hx, hy, he⟩
    · omega
    · exact Or.inl hr
    · refine Or.inr ⟨hy, hx, ?_⟩
      have h1 := (hlc.1 (nameArg x) (nameArg y)).not
      have h2 := (hlc.1 (nameArg y) (nameArg x)).not
      have hle : lc (nameArg y) (nameArg x) ≤ 0 := by omega
      rcases lt_or_eq_of_le hle with hlt | heq
      · exact Or.inl hlt
      · exact Or.inr ⟨heq, hB.2⟩

theorem comparator_of_rank_lt (lc : String → String → Int) (locale recent : List String)
    (a b : Entry) (h : rank locale recent a < rank locale recent b) :
    ∃ z, comparator lc locale recent a b = some z ∧ z < 0 := by
  rcases comparator_cases lc locale recent a b with
    ⟨_, c, hc, hneg⟩ | ⟨hr, _⟩ | ⟨hr, _⟩ | ⟨ha, hb, _⟩
  · exact ⟨c, hc, hneg⟩
  · omega
  · omega
  · omega

theorem comparator_tail_eq (lc : String → String → Int) (locale recent : List String)
    (a b : Entry) (ha : rank locale recent a = tailRank locale recent)
    (hb : rank locale recent b = tailRank locale recent) :
    comparator lc locale recent a b = a.name.map (fun nameA => lc nameA (nameArg b)) := by
  rcases comparator_cases lc locale recent a b with
    ⟨hr, _⟩ | ⟨hr, _⟩ | ⟨_, hr, _⟩ | ⟨_, _, hc⟩
  · omega
  · omega
  · omega
  · exact hc

/-- C18. For every locale-preference and recency list, the display-name comparison
being that of a total preorder, the comparator of `getEncodingList` is a consistent
strict weak order on entries of pairwise distinct codes: it returns a number on every
entry that has a name or is the separator; `cmp(a,b) < 0` if and only if `cmp(b,a) > 0`;
`cmp(a,b) = 0` if and only if `cmp(b,a) = 0`; `cmp(a,b) ≤ 0` and `cmp(b,c) ≤ 0` imply
`cmp(a,c) ≤ 0`.  Hence the result does not depend on the sort algorithm beyond
stability: on a catalog of pairwise distinct codes, every permutation of the catalog
that is sorted by the comparator and keeps entries that compare equal in catalog order
is the list `getEncodingList` returns. -/
theorem comparator_strict_weak_order (lc : String → String → Int)
    (hlc : IsTotalPreorderCompare lc) (locale recent : List String) :
    (∀ a b : Entry, (a.name = none → a.code = "<hr>") →
      ∃ x, comparator lc locale recent a b = some x) ∧
    (∀ (a b : Entry) (x y : Int), a.code ≠ b.code →
      comparator lc locale recent a b = some x →
      comparator lc locale recent b a = some y →
      (x < 0 ↔ 0 < y) ∧ (x = 0 ↔ y = 0)) ∧
    (∀ (a b c : Entry) (x y : Int), a.code ≠ b.code → b.code ≠ c.code →
      (a = c ∨ a.code ≠ c.code) →
      comparator lc locale recent a b = some x →
      comparator lc locale recent b c = some y → x ≤ 0 → y ≤ 0 →
      ∃ z, comparator lc locale recent a c = some z ∧ z ≤ 0) ∧
    (∀ catalog out : List Entry, (catalog.map Entry.code).Nodup → wellFormed catalog →
      out.Perm catalog →
      out.Pairwise (fun a b => ∃ x, comparator lc locale recent a b = some x ∧ x ≤ 0) →
      (∀ a b, List.Sublist [a, b] out → comparator lc locale recent a b = some 0 →
        catalog.indexOf a < catalog.indexOf b) →
      getEncodingList lc locale recent catalog = some out) := by
  refine ⟨?_, ?_, ?_, ?_⟩
  · intro a b ha
    exact Option.isSome_iff_exists.mp (comparator_isSome lc locale recent a b ha)
  · intro a b x y hne hx hy
    have h1 := hlc.1 (nameArg a) (nameArg b)
    have h2 := hlc.1 (nameArg b) (nameArg a)
    rcases comparator_sign lc locale recent a b x hne hx with
      ⟨hr, hx0⟩ | ⟨hr, hx0⟩ | ⟨ha, hb, hxe⟩ <;>
    rcases comparator_sign lc locale recent b a y (Ne.symm hne) hy with
      ⟨hr', hy0⟩ | ⟨hr', hy0⟩ | ⟨hb', ha', hye⟩ <;>
    omega
  · intro a b c x y hab hbc hac hx hy hx0 hy0
    have hab' : rank locale recent a < rank locale recent b ∨
        (rank locale recent a = tailRank locale recent ∧
          rank locale recent b = tailRank locale recent ∧
          x = lc (nameArg a) (nameArg b)) := by
      rcases comparator_sign lc locale recent a b x hab hx with h | h | h
      · exact Or.inl h.1
      · omega
      · exact Or.inr h
    have hbc' : rank locale recent b < rank locale recent c ∨
        (rank locale recent b = tailRank locale recent ∧
          rank locale recent c = tailRank locale recent ∧
          y = lc (nameArg b) (nameArg c)) := by
      rcases comparator_sign lc locale recent b c y hbc hy with h | h | h
      · exact Or.inl h.1
      · omega
      · exact Or.inr h
    have hc := rank_le_tailRank locale recent c
    have hb := rank_le_tailRank locale recent b
    by_cases hlt : rank locale recent a < rank locale recent c
    · obtain ⟨z, hz, hz0⟩ := comparator_of_rank_lt lc locale recent a c hlt
      exact ⟨z, hz, by omega⟩
    · have hall : rank locale recent a = tailRank locale recent ∧
          rank locale recent b = tailRank locale recent ∧
          rank locale recent c = tailRank locale recent ∧
          x = lc (nameArg a) (nameArg b) ∧ y = lc (nameArg b) (nameArg c) := by
        rcases hab' with h | ⟨h1, h2, h3⟩ <;> rcases hbc' with h' | ⟨h1', h2', h3'⟩
        · omega
        · rcases hac with rfl | _ <;> omega
        · omega
        · exact ⟨h1, h2, h2', h3, h3'⟩
      obtain ⟨ha, hb', hc', hxe, hye⟩ := hall
      have hxa := comparator_tail_eq lc locale recent a b ha hb'
      rw [hx] at hxa
      cases hn : a.name with
      | none => simp [hn] at hxa
      | some n =>
        refine ⟨lc n (nameArg c), ?_, ?_⟩
        · rw [comparator_tail_eq lc locale recent a c ha hc', hn]
          rfl
        · have hna : nameArg a = n := by simp [nameArg, hn]
          rw [← hna]
          exact hlc.2 (nameArg a) (nameArg b) (nameArg c) (by omega) (by omega)
  · intro catalog out hd hwf hperm hsorted hstable
    obtain ⟨out0, h0⟩ := Option.isSome_iff_exists.mp
      (getEncodingList_isSome lc locale recent catalog hwf)
    have hp0 := perm_of_getEncodingList lc locale recent catalog out0 h0
    have hs0 := getEncodingList_stableBefore lc hlc locale recent catalog out0 hd h0
    have hnd : out.Nodup := hperm.symm.nodup_iff.mp (List.Nodup.of_map _ hd)
    have hs : out.Pairwise (stableBefore lc locale recent catalog) := by
      rw [List.pairwise_iff_forall_sublist]
      intro a b hab
      have hne : a ≠ b := by
        have := hnd.sublist hab
        simp at this
        exact this
      have ha : a ∈ catalog := hperm.subset (hab.subset (by simp))
      have hb : b ∈ catalog := hperm.subset (hab.subset (by simp))
      have hcode : a.code ≠ b.code := fun hc => hne (List.inj_on_of_nodup_map hd ha hb hc)
      obtain ⟨x, hx, hx0⟩ := List.pairwise_iff_forall_sublist.mp hsorted hab
      rcases comparator_sign lc locale recent a b x hcode hx with
        ⟨hr, _⟩ | ⟨_, hpos⟩ | ⟨hra, hrb, hxe⟩
      · exact Or.inl hr
      · omega
      · refine Or.inr ⟨hra, hrb, ?_⟩
        rcases lt_or_eq_of_le hx0 with hlt | heq
        · exact Or.inl (by omega)
        · refine Or.inr ⟨by omega, ?_⟩
          subst heq
          exact hstable a b hab hx
    haveI : IsAntisymm Entry (stableBefore lc locale recent catalog) :=
      ⟨fun a b h1 h2 => (stableBefore_asymm lc hlc locale recent catalog a b h1 h2).elim⟩
    rw [h0, List.eq_of_perm_of_sorted (hp0.trans hperm.symm) hs0 hs]


theorem comparator_strict_weak_order_witness :
    IsTotalPreorderCompare ordinalCompare ∧
    ∀ x y : Int,
      comparator ordinalCompare ["GBK"] ["Big5"] ⟨"Shift_JIS", some "Japanese"⟩
        ⟨"Windows-1252", some "Western"⟩ = some x →
      comparator ordinalCompare ["GBK"] ["Big5"] ⟨"Windows-1252", some "Western"⟩
        ⟨"Shift_JIS", some "Japanese"⟩ = some y →
      (x < 0 ↔ 0 < y) ∧ (x = 0 ↔ y = 0) :=
  ⟨ordinalCompare_isTotalPreorderCompare, fun x y =>
    (comparator_strict_weak_order ordinalCompare ordinalCompare_isTotalPreorderCompare
      ["GBK"] ["Big5"]).2.1 _ _ x y (by decide)⟩

/-! ## Instances of the heuristic theorems -/

theorem analyzeTextContent_latin1_witness :
    textSampleOf (some [0xC3, 0xA9, 0xC3, 0xA1, 0xC3, 0xB3])
      = [] ++ 0xC3 :: 0xA9 :: [0xC3, 0xA1, 0xC3, 0xB3] ∧
    0xA9 ∈ [0xA1, 0xA9, 0xAD, 0xB3, 0xBA, 0xB1, 0xBC, 0xBF, 0xB4, 0xA2, 0xA7] ∧
    (analyzeTextContent (some [0xC3, 0xA9, 0xC3, 0xA1, 0xC3, 0xB3])).hasLatin1Issues = true ∧
    (analyzeTextContent (some [0xC3, 0xA9, 0xC3, 0xA1, 0xC3, 0xB3])).likelyOriginalEncoding
      = "utf-8-as-latin1" :=
  ⟨by decide, by decide,
    (analyzeTextContent_latin1 (some [0xC3, 0xA9, 0xC3, 0xA1, 0xC3, 0xB3]) []
      [0xC3, 0xA1, 0xC3, 0xB3] 0xA9 (by decide) (by decide)).1⟩

theorem analyzeTextContent_win1252_witness :
    textSampleOf (some [0x41, 0xE2, 0x20AC, 0x153, 0x42])
      = [0x41] ++ 0xE2 :: 0x20AC :: 0x153 :: [0x42] ∧
    0x153 ∈ [0x2122, 0x153, 0xFFFD, 0xA2, 0x22, 0xA6] ∧
    ¬ HasUtf8AsLatin1Pattern (textSampleOf (some [0x41, 0xE2, 0x20AC, 0x153, 0x42])) ∧
    (analyzeTextContent (some [0x41, 0xE2, 0x20AC, 0x153, 0x42])).hasWin1252Issues = true ∧
    (analyzeTextContent (some [0x41, 0xE2, 0x20AC, 0x153, 0x42])).likelyOriginalEncoding
      = "windows-1252-as-utf8" :=
  ⟨by decide, by decide, (test_utf8AsLatin1Regex _).not.mp (by decide),
    (analyzeTextContent_win1252 (some [0x41, 0xE2, 0x20AC, 0x153, 0x42]) [0x41] [0x42]
      0x153 (by decide) (by decide) ((test_utf8AsLatin1Regex _).not.mp (by decide))).1⟩

theorem analyzeTextContent_ascii_witness :
    (∀ c ∈ textSampleOf (some (utf16 "<p>plain text</p>")), c ≤ 0x7F) ∧
    analyzeTextContent (some (utf16 "<p>plain text</p>")) =
      { hasReplacementChars := false, hasLatin1Issues := false, hasWin1252Issues := false,
        suspiciousChars := 0, likelyOriginalEncoding := "unknown" } :=
  ⟨by decide, (analyzeTextContent_ascii (some (utf16 "<p>plain text</p>")) (by decide)).1⟩

end ChromeCharset
